import Mathlib

/-!
# Verification of the VQE cost-function facades

A shallow embedding of `src/vqe/cost_function.py`: the two cost-function
facades `PrepareAndMeasureOnWFSim` and `PrepareAndMeasureOnQVM` and the
helper `address_qubits_hamiltonian`, together with the observable model
(`pyquil.paulis.PauliTerm` / `PauliSum`) they operate on.

The quantum-circuit compiler, the wavefunction simulator and the device
executor are external collaborators; they appear as explicit function
parameters (oracles) of the embedded operations.  Pieces of this
repository that are referenced but not present under `src/`
(`vqe/measurelib.py`) and the external observable model are modelled
from the specification; their doc comments say so.
-/

namespace VQE

/-- Single-qubit Pauli operator symbols, drawn from the alphabet I, X, Y, Z. -/
inductive Pauli : Type
  | I
  | X
  | Y
  | Z
deriving DecidableEq, Repr

/-- Errors mirroring the Python exceptions the translated code can raise. -/
inductive Err : Type
  | keyError
  | indexError
  | typeError
  | valueError (msg : String)
deriving DecidableEq, Repr

/-- Decidable equality of `Except` results, for concrete evaluation. -/
instance exceptDecidableEq {ε α : Type} [DecidableEq ε] [DecidableEq α] :
    DecidableEq (Except ε α) := fun x y =>
  match x, y with
  | .ok a, .ok b =>
      decidable_of_iff (a = b) ⟨fun h => by rw [h], fun h => Except.ok.inj h⟩
  | .error e, .error f =>
      decidable_of_iff (e = f) ⟨fun h => by rw [h], fun h => Except.error.inj h⟩
  | .ok _, .error _ => isFalse (fun h => Except.noConfusion h)
  | .error _, .ok _ => isFalse (fun h => Except.noConfusion h)

section Observable

variable {K : Type} [CommRing K] [DecidableEq K] {Q : Type} [DecidableEq Q]

/-- Modelled from the spec: the observable model's term type
(`pyquil.paulis.PauliTerm`, an external collaborator absent from `src/`):
a scalar coefficient and an ordered collection of
(qubit identifier, non-identity Pauli operator) factors with pairwise
distinct qubits.  Coefficients live in an arbitrary commutative ring `K`
standing for the real scalars of the spec; qubit identifiers (abstract
placeholders and concrete indices alike) live in one type `Q`. -/
structure PauliTerm (K Q : Type) where
  coefficient : K
  ops : List (Q × Pauli)
deriving DecidableEq

/-- Modelled from the spec: `pyquil.paulis.PauliSum`, an ordered collection
of weighted Pauli terms. -/
structure PauliSum (K Q : Type) where
  terms : List (PauliTerm K Q)
deriving DecidableEq

namespace PauliTerm

/-- The qubit identifiers a term acts on, in factor order
(`PauliTerm.get_qubits`). -/
def qubits (t : PauliTerm K Q) : List Q := t.ops.map Prod.fst

/-- The set of (qubit, operator) pairs of a term
(`PauliTerm.operations_as_set`): the key under which simplification
merges terms. -/
def opsKey (t : PauliTerm K Q) : Finset (Q × Pauli) := t.ops.toFinset

end PauliTerm

/-- Keep the first occurrence of every element and delete the later
duplicates: the iteration order of a Python dict keyed in insertion
order. -/
def dedupFirst {α : Type} [DecidableEq α] : List α → List α
  | [] => []
  | a :: l => a :: (dedupFirst l).filter (fun b => decide (b ≠ a))

/-- Merge one group of terms sharing the key `k`: sum the coefficients onto
the first term of the group and drop the group when the sum vanishes
(one group of `pyquil.paulis.simplify_pauli_sum`; the floating-point
`np.isclose(coeff, 0)` test is modelled as an exact zero test). -/
def mergeGroup (ts : List (PauliTerm K Q)) (k : Finset (Q × Pauli)) :
    Option (PauliTerm K Q) :=
  match ts.filter (fun t => decide (t.opsKey = k)) with
  | [] => none
  | t :: rest =>
      let c := t.coefficient + (rest.map PauliTerm.coefficient).sum
      if c = 0 then none else some ⟨c, t.ops⟩

/-- Modelled from the spec: `pyquil.paulis.simplify_pauli_sum`.  Group the
terms by `opsKey` in first-occurrence order, merge every group, and fall
back to a single zero identity term when everything cancels. -/
def simplifyTerms (ts : List (PauliTerm K Q)) : List (PauliTerm K Q) :=
  let r := (dedupFirst (ts.map PauliTerm.opsKey)).filterMap (mergeGroup ts)
  if r = [] then [⟨0, []⟩] else r

/-- `PauliSum` addition of a further term: append it and simplify
(`pyquil.paulis.PauliSum.__add__` followed by `simplify`). -/
def PauliSum.addTerm (s : PauliSum K Q) (t : PauliTerm K Q) : PauliSum K Q :=
  ⟨simplifyTerms (s.terms ++ [t])⟩

/-- `PauliSum.get_qubits`: the union of the terms' qubit sets. -/
def PauliSum.get_qubits (s : PauliSum K Q) : Finset Q :=
  s.terms.foldr (fun t acc => t.qubits.toFinset ∪ acc) ∅

/-- `PauliTerm.from_list`: build one term from a list of
(operator, qubit) pairs and a coefficient.  An empty list is an
`IndexError`, duplicated qubits are rejected, and identity factors
contribute no operation. -/
def PauliTerm.fromList (l : List (Pauli × Q)) (c : K) : Except Err (PauliTerm K Q) :=
  match l with
  | [] => .error .indexError
  | _ :: _ =>
      if (l.map Prod.snd).Nodup then
        .ok ⟨c, l.filterMap (fun p => if p.1 = Pauli.I then none else some (p.2, p.1))⟩
      else
        .error (.valueError "from_list factors must be on disjoint qubits")

/-- Python dict lookup in an association list: the first binding wins and a
missing key is a `KeyError`. -/
def qubitLookup (m : List (Q × Q)) (q : Q) : Except Err Q :=
  match m with
  | [] => .error .keyError
  | p :: rest => if p.1 = q then .ok p.2 else qubitLookup rest q

/-- The inner loop of `address_qubits_hamiltonian`: remap every factor of
one term, producing the (operator, concrete qubit) list handed to
`from_list`. -/
def addressTermOps (m : List (Q × Q)) : List (Q × Pauli) → Except Err (List (Pauli × Q))
  | [] => .ok []
  | p :: rest => do
      let i ← qubitLookup m p.1
      let tail ← addressTermOps m rest
      .ok ((p.2, i) :: tail)

/-- One iteration of the `for term in hamiltonian` loop of
`address_qubits_hamiltonian`: remap the factors of one term, rebuild it
with `from_list` and add it onto the accumulator. -/
def addressStep (qubit_mapping : List (Q × Q)) (out : PauliSum K Q)
    (term : PauliTerm K Q) : Except Err (PauliSum K Q) := do
  let ops ← addressTermOps qubit_mapping term.ops
  let t ← PauliTerm.fromList ops term.coefficient
  pure (out.addTerm t)

/-- `address_qubits_hamiltonian` (`src/vqe/cost_function.py`): remap the
qubit identifiers of every term of `hamiltonian` through `qubit_mapping`,
rebuilding each term with `from_list` and summing the rebuilt terms onto
the zero identity accumulator `PauliTerm("I", 0, 0)`.  The
`Qubit`-to-`int` unwrapping of the Python source is the identity here
because all qubit identifiers are modelled by the single type `Q`. -/
def address_qubits_hamiltonian (hamiltonian : PauliSum K Q)
    (qubit_mapping : List (Q × Q)) : Except Err (PauliSum K Q) :=
  hamiltonian.terms.foldlM (addressStep qubit_mapping) ⟨[⟨0, []⟩]⟩

/-- The operator a term applies on the qubit `q`, if any. -/
def PauliTerm.opOn (t : PauliTerm K Q) (q : Q) : Option Pauli :=
  (t.ops.find? (fun p => decide (p.1 = q))).map Prod.snd

/-- Modelled from the spec: qubit-wise commutation — on every qubit the two
terms either apply the same operator or at most one acts non-trivially. -/
def qubitWiseCommutes (s t : PauliTerm K Q) : Bool :=
  s.ops.all (fun p =>
    match t.opOn p.1 with
    | none => true
    | some o => decide (o = p.2))

/-- Modelled from the spec: one step of the greedy grouping — put the term
into the first group all of whose members qubit-wise commute with it, or
open a new group at the end. -/
def placeTerm (t : PauliTerm K Q) : List (List (PauliTerm K Q)) → List (List (PauliTerm K Q))
  | [] => [[t]]
  | g :: gs =>
      if g.all (fun u => qubitWiseCommutes t u) then (g ++ [t]) :: gs
      else g :: placeTerm t gs

/-- Modelled from the spec: `commuting_decomposition` from
`vqe/measurelib.py` (a file of this repository that is not under `src/`):
greedy bin-packing of the terms, in input order, into qubit-wise
commuting groups. -/
def commuting_decomposition (h : PauliSum K Q) : List (PauliSum K Q) :=
  (h.terms.foldl (fun gs t => placeTerm t gs) []).map PauliSum.mk

/-- The total function a qubit mapping denotes (identity outside its
keys; only applied under coverage hypotheses). -/
def mappingFun (m : List (Q × Q)) (q : Q) : Q :=
  match qubitLookup m q with
  | .ok i => i
  | .error _ => q

/-- Reference remapping of one term, following the spec's words:
substitute every qubit identifier through the mapping, keeping the
coefficient and the operators. -/
def remapTerm (f : Q → Q) (t : PauliTerm K Q) : PauliTerm K Q :=
  ⟨t.coefficient, t.ops.map (fun p => (f p.1, p.2))⟩

end Observable

/-- One record of the optional call log: the deep-copied parameter snapshot
`x` and the full function value `fun` = (mean, stderr)
(the `LogEntry` namedtuple; the second field is called `fn` here because
`fun` is a Lean keyword). -/
structure LogEntry (X : Type) where
  x : X
  fn : ℝ × ℝ

/-- What a facade call hands back to the optimizer: a bare scalar in
scalar mode, the (mean, stderr) pair otherwise. -/
inductive RetVal : Type
  | scalar (v : ℝ)
  | pair (p : ℝ × ℝ)

/-- Non-fatal warnings a constructor can emit. -/
inductive Warning : Type
  | deprecation
deriving DecidableEq, Repr

/-- Shot-count resolution shared by both facades' `__call__`: an explicit
argument wins; otherwise scalar mode falls back to the stored count and
non-scalar mode raises `ValueError("nshots cannot be None")`.  The last
branch (scalar mode with no stored count) is unreachable through the
constructors, which reject that configuration; in Python it would
surface later as a `TypeError` from arithmetic on `None`, and it is
modelled as an immediate `TypeError`. -/
def resolveNshots (scalar : Bool) (stored : Option Nat) (arg : Option Nat) :
    Except Err Nat :=
  match arg with
  | some n => .ok n
  | none =>
      if scalar then
        match stored with
        | some n => .ok n
        | none => .error .typeError
      else .error (.valueError "nshots cannot be None")

section QVMFacade

variable {K Q : Type} [CommRing K] [DecidableEq K] [DecidableEq Q]
variable {X Mem Prog Exe S Row : Type}

/-- The state of a `PrepareAndMeasureOnQVM` facade after construction: the
mode flags, the commuting decomposition `hams`, the compiled per-group
executables `exes`, and the optional log.  The quantum-computer
connection `self.qvm` is an external collaborator and appears as the
`run` function and its state `S` threaded through `qvmCall`. -/
structure QVMState (X Mem Exe : Type) (K Q : Type) where
  scalar : Bool
  nshots : Option Nat
  return_standard_deviation : Option Bool
  make_memory_map : X → Mem
  hams : List (PauliSum K Q)
  exes : List Exe
  log : Option (List (LogEntry X))

/-- `PrepareAndMeasureOnQVM.__init__`.  External collaborators are the
oracles `addrProg` (`pyquil.quil.address_qubits`), `compile`
(`qvm.compile`) and `appendMeasure` (`append_measure_register` from
`vqe/measurelib.py`, which receives the group's qubits, the compiled-in
trial count `base_numshots` and the group itself).  Note that the
missing-`nshots` check precedes the deprecation handling here, unlike in
`PrepareAndMeasureOnWFSim.__init__`. -/
def QVM.init (addrProg : Prog → List (Q × Q) → Prog) (compile : Prog → Exe)
    (appendMeasure : Prog → Finset Q → Nat → PauliSum K Q → Prog)
    (prepare_ansatz : Prog) (make_memory_map : X → Mem)
    (hamiltonian : PauliSum K Q)
    (return_standard_deviation : Option Bool)
    (scalar_cost_function : Bool) (nshots : Option Nat) (base_numshots : Nat)
    (qubit_mapping : Option (List (Q × Q))) (enable_logging : Bool) :
    List Warning × Except Err (QVMState X Mem Exe K Q) :=
  if scalar_cost_function && nshots.isNone then
    ([], .error (.valueError "If scalar_cost_function is set, nshots has to be specified"))
  else
    let warns : List Warning :=
      match return_standard_deviation with
      | some _ => [Warning.deprecation]
      | none => []
    let scalar :=
      match return_standard_deviation with
      | some _ => true
      | none => scalar_cost_function
    let nsh :=
      match return_standard_deviation with
      | some _ => some 1000
      | none => nshots
    let remapped : Except Err (Prog × PauliSum K Q) :=
      match qubit_mapping with
      | some m => do
          let h ← address_qubits_hamiltonian hamiltonian m
          pure (addrProg prepare_ansatz m, h)
      | none => .ok (prepare_ansatz, hamiltonian)
    match remapped with
    | .error e => (warns, .error e)
    | .ok (pa, ham) =>
        let hams := commuting_decomposition ham
        let exes := hams.map (fun h =>
          compile (appendMeasure pa h.get_qubits base_numshots h))
        (warns, .ok
          { scalar := scalar
            nshots := nsh
            return_standard_deviation := return_standard_deviation
            make_memory_map := make_memory_map
            hams := hams
            exes := exes
            log := if enable_logging then some [] else none })

/-- The inner shot-accumulation loop of `PrepareAndMeasureOnQVM.__call__`:
`for i in range(nshots - 1)` run the executable again and append the new
rows (`np.append(bitstring, new_bits, axis=0)`). -/
def runAccum (run : S → Exe → Mem → List Row × S) (mem : Mem) (exe : Exe) :
    Nat → List Row × S → List Row × S
  | 0, bs => bs
  | k + 1, (b, s) =>
      let r := run s exe mem
      runAccum run mem exe k (b ++ r.1, r.2)

/-- The outer loop of `PrepareAndMeasureOnQVM.__call__`: for each compiled
executable, one first run followed by `nshots - 1` accumulating runs,
collecting one bitstring batch per commuting group. -/
def qvmRunGroups (run : S → Exe → Mem → List Row × S) (mem : Mem) (n : Nat) :
    List Exe → S → List (List Row) × S
  | [], s => ([], s)
  | exe :: rest, s =>
      let first := run s exe mem
      let acc := runAccum run mem exe (n - 1) first
      let others := qvmRunGroups run mem n rest acc.2
      (acc.1 :: others.1, others.2)

/-- `PrepareAndMeasureOnQVM.__call__`.  `run` is the backend's
`qvm.run(exe, memory_map=...)` (stateful, with state type `S`), and
`expectation` is `sampling_expectation_z_base` from `vqe/measurelib.py`
(repository code not under `src/`, kept abstract because no claim
depends on its internals).  Returns the Python return value, the updated
facade state and the updated backend state. -/
def qvmCall (run : S → Exe → Mem → List Row × S)
    (expectation : List (PauliSum K Q) → List (List Row) → ℝ × ℝ)
    (st : QVMState X Mem Exe K Q) (s0 : S) (params : X) (nshotsArg : Option Nat) :
    Except Err RetVal × QVMState X Mem Exe K Q × S :=
  match resolveNshots st.scalar st.nshots nshotsArg with
  | .error e => (.error e, st, s0)
  | .ok n =>
      let mem := st.make_memory_map params
      let groups := qvmRunGroups run mem n st.exes s0
      let out := expectation st.hams groups.1
      (.ok (if st.scalar then RetVal.scalar out.1 else RetVal.pair out),
       { st with log := st.log.map (fun l => l ++ [⟨params, out⟩]) },
       groups.2)

/-- Reference process for C1: `seqRuns` performs `n` sequential
invocations of the backend's `run` on one executable, always with the
same memory map, keeping each invocation's rows separate;
`seqGroups` does this for every executable in order, threading the
backend state through, with no interleaving between groups. -/
def seqRuns (run : S → Exe → Mem → List Row × S) (mem : Mem) (exe : Exe) :
    Nat → S → List (List Row) × S
  | 0, s => ([], s)
  | k + 1, s =>
      let r := run s exe mem
      let rest := seqRuns run mem exe k r.2
      (r.1 :: rest.1, rest.2)

/-- See `seqRuns`: the per-group reference process, one group at a time in
decomposition order. -/
def seqGroups (run : S → Exe → Mem → List Row × S) (mem : Mem) (n : Nat) :
    List Exe → S → List (List (List Row)) × S
  | [], s => ([], s)
  | exe :: rest, s =>
      let bs := seqRuns run mem exe n s
      let others := seqGroups run mem n rest bs.2
      (bs.1 :: others.1, others.2)

end QVMFacade

section WFSimFacade

variable {K Q : Type} [CommRing K] [DecidableEq K] [DecidableEq Q]
variable {X Mem Prog : Type} {ι : Type} [Fintype ι]

/-- The `hamiltonian` constructor argument of `PrepareAndMeasureOnWFSim`:
either a `PauliSum` or an already materialized matrix; anything else
raises `ValueError` in the source and is excluded by typing here. -/
inductive HamInput (K Q : Type) (ι : Type) : Type
  | pauli (h : PauliSum K Q)
  | matrix (m : Matrix ι ι ℂ)

/-- The state of a `PrepareAndMeasureOnWFSim` facade after construction.
The wavefunction simulator `self.sim` is kept as the oracle `sim`
(`sim.wavefunction(program, memory_map) -> amplitudes`); amplitude
vectors are indexed by the type `ι`. -/
structure WFSimState (X Mem Prog : Type) (ι : Type) where
  scalar : Bool
  nshots : Option Nat
  return_standard_deviation : Option Bool
  make_memory_map : X → Mem
  noisy : Bool
  sim : Prog → Mem → ι → ℂ
  prepare_ansatz : Prog
  ham : Matrix ι ι ℂ
  ham_squared : Matrix ι ι ℂ
  log : Option (List (LogEntry X))

/-- `PrepareAndMeasureOnWFSim.__init__`.  `addrProg` is
`pyquil.quil.address_qubits` and `pauliMatrix` is the external
`PauliSum.matrix(int_mapping or {}, nqubits)` materialization, applied
to the hamiltonian, the integer mapping (empty when none was given) and
`nqubits = len(hamiltonian.get_qubits())`.  `self.ham_squared` is
precomputed as the matrix square `self.ham ** 2`.  The deprecation
fallback runs before the missing-`nshots` check. -/
noncomputable def WFSim.init (addrProg : Prog → List (Q × Q) → Prog)
    (pauliMatrix : PauliSum K Q → List (Q × Q) → Nat → Matrix ι ι ℂ)
    (prepare_ansatz : Prog) (make_memory_map : X → Mem)
    (hamiltonian : HamInput K Q ι) (sim : Prog → Mem → ι → ℂ)
    (return_standard_deviation : Option Bool)
    (scalar_cost_function : Bool) (nshots : Option Nat)
    (noisy : Bool) (enable_logging : Bool)
    (qubit_mapping : Option (List (Q × Q))) :
    List Warning × Except Err (WFSimState X Mem Prog ι) :=
  let warns : List Warning :=
    match return_standard_deviation with
    | some _ => [Warning.deprecation]
    | none => []
  let scalar :=
    match return_standard_deviation with
    | some _ => true
    | none => scalar_cost_function
  let nsh :=
    match return_standard_deviation with
    | some _ => some 1000
    | none => nshots
  if scalar && nsh.isNone then
    (warns, .error (.valueError "If scalar_cost_function is set, nshots has to be specified"))
  else
    let pa :=
      match qubit_mapping with
      | some m => addrProg prepare_ansatz m
      | none => prepare_ansatz
    let ham :=
      match hamiltonian with
      | .pauli h => pauliMatrix h (qubit_mapping.getD []) h.get_qubits.card
      | .matrix m => m
    (warns, .ok
      { scalar := scalar
        nshots := nsh
        return_standard_deviation := return_standard_deviation
        make_memory_map := make_memory_map
        noisy := noisy
        sim := sim
        prepare_ansatz := pa
        ham := ham
        ham_squared := ham * ham
        log := if enable_logging then some [] else none })

/-- The expectation value `np.conj(wf).T.dot(H.dot(wf)).real` of a matrix
`H` on the amplitude vector `ψ`. -/
noncomputable def expectationValue (H : Matrix ι ι ℂ) (ψ : ι → ℂ) : ℝ :=
  (Matrix.dotProduct (star ψ) (H.mulVec ψ)).re

/-- The (mean, spread) pair computed by one `PrepareAndMeasureOnWFSim`
call: `E = Re(ψ* H ψ)`,
`sigma_E = nshots ** (-1/2) * (Re(ψ* H² ψ) - E ** 2)`, and — only when
`noisy` — a simulated-noise shift `np.random.randn() * sigma_E` added
onto `E`; the drawn standard-normal sample is the parameter `g`. -/
noncomputable def wfOut (st : WFSimState X Mem Prog ι) (g : ℝ) (params : X)
    (nshots : Nat) : ℝ × ℝ :=
  let ψ := st.sim st.prepare_ansatz (st.make_memory_map params)
  let E := expectationValue st.ham ψ
  let sigmaE := (nshots : ℝ) ^ ((-1 : ℝ) / 2) *
    (expectationValue st.ham_squared ψ - E ^ 2)
  (if st.noisy then E + g * sigmaE else E, sigmaE)

/-- `PrepareAndMeasureOnWFSim.__call__`: resolve the shot count, compute
the (mean, spread) pair, append the log entry when logging is enabled
(`deepcopy(params)` is the identity on immutable Lean values; the
snapshot semantics is examined against a mutable parameter store in the
logging harness below) and return either the bare mean or the pair. -/
noncomputable def wfsimCall (g : ℝ) (st : WFSimState X Mem Prog ι) (params : X)
    (nshotsArg : Option Nat) :
    Except Err RetVal × WFSimState X Mem Prog ι :=
  match resolveNshots st.scalar st.nshots nshotsArg with
  | .error e => (.error e, st)
  | .ok n =>
      let out := wfOut st g params n
      (.ok (if st.scalar then RetVal.scalar out.1 else RetVal.pair out),
       { st with log := st.log.map (fun l => l ++ [⟨params, out⟩]) })

end WFSimFacade

section Fixtures

/-- Concrete sampling backend for witnesses: every run returns one row
holding the current counter value and advances the counter. -/
def fixRun : Nat → Unit → Unit → List Nat × Nat := fun s _ _ => ([s], s + 1)

/-- Concrete estimator oracle for witnesses. -/
noncomputable def fixExp : List (PauliSum ℤ ℕ) → List (List Nat) → ℝ × ℝ :=
  fun _ _ => (0, 0)

/-- Concrete sampling-facade state for witnesses. -/
def fixStQ (b : Bool) : QVMState Unit Unit Unit ℤ ℕ :=
  { scalar := b
    nshots := some 7
    return_standard_deviation := none
    make_memory_map := fun _ => ()
    hams := []
    exes := [(), ()]
    log := some [] }

/-- Concrete simulator-facade state for witnesses. -/
noncomputable def fixStW (b noisy : Bool) : WFSimState Unit Unit Unit (Fin 1) :=
  { scalar := b
    nshots := some 7
    return_standard_deviation := none
    make_memory_map := fun _ => ()
    noisy := noisy
    sim := fun _ _ _ => 1
    prepare_ansatz := ()
    ham := 1
    ham_squared := 1 * 1
    log := some [] }


/-- Simulator-facade state as produced by `WFSim.init` in the C2 witness. -/
noncomputable def fixStInit : WFSimState Unit Unit Unit (Fin 1) :=
  { scalar := false
    nshots := none
    return_standard_deviation := none
    make_memory_map := fun _ => ()
    noisy := false
    sim := fun _ _ _ => 1
    prepare_ansatz := ()
    ham := 1
    ham_squared := 1 * 1
    log := none }

end Fixtures

section Harness

variable {K Q : Type} [CommRing K] [DecidableEq K] [DecidableEq Q]
variable {X Mem Prog Exe S Row : Type} {ι : Type} [Fintype ι]

/-- Caller actions against a simulator facade.  The caller's parameter
arrays live in a mutable `Nat`-addressed store, so the deep-copy
semantics of the log snapshot is observable: `call a n g` evaluates the
facade on the array currently stored at address `a` (with an explicit
shot count `n` and noise draw `g`), `write a v` mutates the array at `a`
in place. -/
inductive WFAct (X : Type) : Type
  | call (a : Nat) (n : Nat) (g : ℝ)
  | write (a : Nat) (v : X)

/-- Whether an action is a facade call. -/
def WFAct.isCall {X : Type} : WFAct X → Bool
  | .call _ _ _ => true
  | .write _ _ => false

/-- A caller world: the mutable parameter store and the facade. -/
structure WFWorld (X Mem Prog : Type) (ι : Type) where
  heap : Nat → X
  st : WFSimState X Mem Prog ι

/-- Execute one caller action against the simulator facade. -/
noncomputable def wfStep (w : WFWorld X Mem Prog ι) : WFAct X → WFWorld X Mem Prog ι
  | .call a n g => { w with st := (wfsimCall g w.st (w.heap a) (some n)).2 }
  | .write a v => { w with heap := fun b => if b = a then v else w.heap b }

/-- Execute a list of caller actions in order. -/
noncomputable def wfRun (w : WFWorld X Mem Prog ι) (acts : List (WFAct X)) :
    WFWorld X Mem Prog ι :=
  acts.foldl wfStep w

/-- The reference log trace: one entry per call action, in order, whose
`x` is the value stored at the called address at call time and whose
`fn` is the full (mean, spread) pair of that evaluation. -/
noncomputable def wfSnapshots (st0 : WFSimState X Mem Prog ι) :
    (Nat → X) → List (WFAct X) → List (LogEntry X)
  | _, [] => []
  | h, WFAct.call a n g :: acts => ⟨h a, wfOut st0 g (h a) n⟩ :: wfSnapshots st0 h acts
  | h, WFAct.write a v :: acts =>
      wfSnapshots st0 (fun b => if b = a then v else h b) acts

/-- Caller actions against a sampling facade: as `WFAct`, with the backend
state threaded through calls. -/
inductive QAct (X : Type) : Type
  | call (a : Nat) (n : Nat)
  | write (a : Nat) (v : X)

/-- Whether an action is a facade call. -/
def QAct.isCall {X : Type} : QAct X → Bool
  | .call _ _ => true
  | .write _ _ => false

/-- A caller world for the sampling facade: parameter store, facade state
and backend state. -/
structure QWorld (X Mem Exe K Q S : Type) where
  heap : Nat → X
  st : QVMState X Mem Exe K Q
  backend : S

/-- The (mean, stderr) pair one sampling call computes, together with the
backend state it leaves behind. -/
def qvmOut (run : S → Exe → Mem → List Row × S)
    (expectation : List (PauliSum K Q) → List (List Row) → ℝ × ℝ)
    (st : QVMState X Mem Exe K Q) (s : S) (p : X) (n : Nat) : (ℝ × ℝ) × S :=
  let groups := qvmRunGroups run (st.make_memory_map p) n st.exes s
  (expectation st.hams groups.1, groups.2)

/-- Execute one caller action against the sampling facade. -/
def qStep (run : S → Exe → Mem → List Row × S)
    (expectation : List (PauliSum K Q) → List (List Row) → ℝ × ℝ)
    (w : QWorld X Mem Exe K Q S) : QAct X → QWorld X Mem Exe K Q S
  | .call a n =>
      let r := qvmCall run expectation w.st w.backend (w.heap a) (some n)
      { w with st := r.2.1, backend := r.2.2 }
  | .write a v => { w with heap := fun b => if b = a then v else w.heap b }

/-- Execute a list of caller actions in order. -/
def qRun (run : S → Exe → Mem → List Row × S)
    (expectation : List (PauliSum K Q) → List (List Row) → ℝ × ℝ)
    (w : QWorld X Mem Exe K Q S) (acts : List (QAct X)) : QWorld X Mem Exe K Q S :=
  acts.foldl (qStep run expectation) w

/-- The reference log trace of the sampling facade, threading the backend
state through the calls. -/
def qSnapshots (run : S → Exe → Mem → List Row × S)
    (expectation : List (PauliSum K Q) → List (List Row) → ℝ × ℝ)
    (st0 : QVMState X Mem Exe K Q) :
    (Nat → X) → S → List (QAct X) → List (LogEntry X)
  | _, _, [] => []
  | h, s, QAct.call a n :: acts =>
      ⟨h a, (qvmOut run expectation st0 s (h a) n).1⟩ ::
        qSnapshots run expectation st0 h (qvmOut run expectation st0 s (h a) n).2 acts
  | h, s, QAct.write a v :: acts =>
      qSnapshots run expectation st0 (fun b => if b = a then v else h b) s acts

end Harness

section FacadeClaims

variable {K Q : Type} [CommRing K] [DecidableEq K] [DecidableEq Q]
variable {X Mem Prog Exe S Row : Type} {ι : Type} [Fintype ι]

/-- C3: for both facades, scalar mode (`scalar_cost_function = true`) with
no shot count at construction (`nshots = none`) and no deprecated
argument fails eagerly at construction with the
missing-shot-count `ValueError`, before any call can happen. -/
theorem scalar_mode_missing_nshots_fails_at_construction
    (addrProg : Prog → List (Q × Q) → Prog)
    (pauliMatrix : PauliSum K Q → List (Q × Q) → Nat → Matrix ι ι ℂ)
    (prepare_ansatz : Prog) (make_memory_map : X → Mem)
    (hamiltonianW : HamInput K Q ι) (sim : Prog → Mem → ι → ℂ)
    (noisy enable_logging : Bool) (qm : Option (List (Q × Q)))
    (compile : Prog → Exe)
    (appendMeasure : Prog → Finset Q → Nat → PauliSum K Q → Prog)
    (hamiltonianQ : PauliSum K Q) (base_numshots : Nat) :
    WFSim.init addrProg pauliMatrix prepare_ansatz make_memory_map
        hamiltonianW sim none true none noisy enable_logging qm
      = ([], .error (.valueError "If scalar_cost_function is set, nshots has to be specified"))
    ∧ QVM.init addrProg compile appendMeasure prepare_ansatz
        make_memory_map hamiltonianQ none true none base_numshots qm enable_logging
      = ([], .error (.valueError "If scalar_cost_function is set, nshots has to be specified")) :=
  ⟨rfl, rfl⟩

/-- C10: in (mean, stderr) mode (`scalar_cost_function = false`) a call
with `nshots = None` raises `ValueError("nshots cannot be None")` before
any backend interaction, leaving the facade state (log included) and the
backend state unchanged; any call with a concrete `nshots` passes this
check and produces a result. -/
theorem variable_shots_call_requires_nshots
    (run : S → Exe → Mem → List Row × S)
    (expectation : List (PauliSum K Q) → List (List Row) → ℝ × ℝ)
    (stQ : QVMState X Mem Exe K Q) (s0 : S) (p : X)
    (stW : WFSimState X Mem Prog ι) (g : ℝ) (n : Nat)
    (hQ : stQ.scalar = false) (hW : stW.scalar = false) :
    qvmCall run expectation stQ s0 p none
      = (.error (.valueError "nshots cannot be None"), stQ, s0)
    ∧ (∃ r, (qvmCall run expectation stQ s0 p (some n)).1 = .ok r)
    ∧ wfsimCall g stW p none = (.error (.valueError "nshots cannot be None"), stW)
    ∧ (∃ r, (wfsimCall g stW p (some n)).1 = .ok r) := by
  refine ⟨?_, ⟨_, rfl⟩, ?_, ⟨_, rfl⟩⟩
  · simp [qvmCall, resolveNshots, hQ]
  · simp [wfsimCall, resolveNshots, hW]

/-- Witness for C10 at concrete inputs. -/
theorem variable_shots_call_requires_nshots_witness :
    qvmCall fixRun fixExp (fixStQ false) 0 () none
      = (.error (.valueError "nshots cannot be None"), fixStQ false, 0)
    ∧ (∃ r, (qvmCall fixRun fixExp (fixStQ false) 0 () (some 2)).1 = .ok r)
    ∧ wfsimCall 0 (fixStW false false) () none
      = (.error (.valueError "nshots cannot be None"), fixStW false false)
    ∧ (∃ r, (wfsimCall 0 (fixStW false false) () (some 2)).1 = .ok r) :=
  variable_shots_call_requires_nshots fixRun fixExp (fixStQ false) 0 ()
    (fixStW false false) 0 2 rfl rfl

/-- C8: a call mutates no derived facade state: the commuting
decomposition `hams`, the compiled executables `exes`, the mode fields,
and (for the simulator facade) the addressed ansatz, the hamiltonian
matrix and its square are all left unchanged by `__call__`; the optional
log is the only field that changes, and only by appending at most one
entry. -/
theorem call_mutates_only_log_by_append
    (run : S → Exe → Mem → List Row × S)
    (expectation : List (PauliSum K Q) → List (List Row) → ℝ × ℝ)
    (stQ : QVMState X Mem Exe K Q) (s0 : S) (p : X) (nsQ : Option Nat)
    (stW : WFSimState X Mem Prog ι) (g : ℝ) (nsW : Option Nat) :
    ((qvmCall run expectation stQ s0 p nsQ).2.1.scalar = stQ.scalar
      ∧ (qvmCall run expectation stQ s0 p nsQ).2.1.nshots = stQ.nshots
      ∧ (qvmCall run expectation stQ s0 p nsQ).2.1.return_standard_deviation
          = stQ.return_standard_deviation
      ∧ (qvmCall run expectation stQ s0 p nsQ).2.1.make_memory_map = stQ.make_memory_map
      ∧ (qvmCall run expectation stQ s0 p nsQ).2.1.hams = stQ.hams
      ∧ (qvmCall run expectation stQ s0 p nsQ).2.1.exes = stQ.exes
      ∧ ∃ app : List (LogEntry X), app.length ≤ 1
          ∧ (qvmCall run expectation stQ s0 p nsQ).2.1.log
              = stQ.log.map (fun l => l ++ app))
    ∧ ((wfsimCall g stW p nsW).2.scalar = stW.scalar
      ∧ (wfsimCall g stW p nsW).2.nshots = stW.nshots
      ∧ (wfsimCall g stW p nsW).2.return_standard_deviation
          = stW.return_standard_deviation
      ∧ (wfsimCall g stW p nsW).2.make_memory_map = stW.make_memory_map
      ∧ (wfsimCall g stW p nsW).2.noisy = stW.noisy
      ∧ (wfsimCall g stW p nsW).2.sim = stW.sim
      ∧ (wfsimCall g stW p nsW).2.prepare_ansatz = stW.prepare_ansatz
      ∧ (wfsimCall g stW p nsW).2.ham = stW.ham
      ∧ (wfsimCall g stW p nsW).2.ham_squared = stW.ham_squared
      ∧ ∃ app : List (LogEntry X), app.length ≤ 1
          ∧ (wfsimCall g stW p nsW).2.log = stW.log.map (fun l => l ++ app)) := by
  constructor
  · cases hres : resolveNshots stQ.scalar stQ.nshots nsQ with
    | error e =>
        refine ⟨?_, ?_, ?_, ?_, ?_, ?_, [], by simp, ?_⟩ <;>
          simp [qvmCall, hres] <;> cases stQ.log <;> simp
    | ok n =>
        refine ⟨?_, ?_, ?_, ?_, ?_, ?_,
          [⟨p, expectation stQ.hams
              (qvmRunGroups run (stQ.make_memory_map p) n stQ.exes s0).1⟩],
          by simp, ?_⟩ <;> simp [qvmCall, hres]
  · cases hres : resolveNshots stW.scalar stW.nshots nsW with
    | error e =>
        refine ⟨?_, ?_, ?_, ?_, ?_, ?_, ?_, ?_, ?_, [], by simp, ?_⟩ <;>
          simp [wfsimCall, hres] <;> cases stW.log <;> simp
    | ok n =>
        refine ⟨?_, ?_, ?_, ?_, ?_, ?_, ?_, ?_, ?_,
          [⟨p, wfOut stW g p n⟩], by simp, ?_⟩ <;> simp [wfsimCall, hres]

/-- C9: the simulator facade perturbs the energy only on request.  With
`noisy = false` the result is independent of the drawn noise sample and
equals the analytic value exactly; with `noisy = true` the single drawn
sample `g`, scaled by the spread, is added onto the energy before it is
logged and returned (the spread itself stays analytic). -/
theorem wfsim_noise_only_on_request
    (st : WFSimState X Mem Prog ι) (p : X) (ns : Option Nat) (g g2 : ℝ) (n : Nat) :
    (st.noisy = false → wfsimCall g st p ns = wfsimCall g2 st p ns)
    ∧ (st.noisy = false → wfOut st g p n =
        (expectationValue st.ham (st.sim st.prepare_ansatz (st.make_memory_map p)),
         (n : ℝ) ^ ((-1 : ℝ) / 2) *
           (expectationValue st.ham_squared (st.sim st.prepare_ansatz (st.make_memory_map p))
             - expectationValue st.ham (st.sim st.prepare_ansatz (st.make_memory_map p)) ^ 2)))
    ∧ (st.noisy = true → wfOut st g p n =
        (expectationValue st.ham (st.sim st.prepare_ansatz (st.make_memory_map p))
           + g * ((n : ℝ) ^ ((-1 : ℝ) / 2) *
             (expectationValue st.ham_squared (st.sim st.prepare_ansatz (st.make_memory_map p))
               - expectationValue st.ham (st.sim st.prepare_ansatz (st.make_memory_map p)) ^ 2)),
         (n : ℝ) ^ ((-1 : ℝ) / 2) *
           (expectationValue st.ham_squared (st.sim st.prepare_ansatz (st.make_memory_map p))
             - expectationValue st.ham (st.sim st.prepare_ansatz (st.make_memory_map p)) ^ 2))) := by
  refine ⟨fun hn => ?_, fun hn => ?_, fun hn => ?_⟩
  · cases hres : resolveNshots st.scalar st.nshots ns with
    | error e => simp [wfsimCall, hres]
    | ok k => simp [wfsimCall, hres, wfOut, hn]
  · simp [wfOut, hn]
  · simp [wfOut, hn]

/-- Witness for C9 at concrete inputs, on a noiseless and a noisy state. -/
theorem wfsim_noise_only_on_request_witness :
    (wfsimCall 0 (fixStW true false) () none = wfsimCall 1 (fixStW true false) () none)
    ∧ (wfOut (fixStW true false) 0 () 7 =
        (expectationValue (fixStW true false).ham
           ((fixStW true false).sim (fixStW true false).prepare_ansatz
             ((fixStW true false).make_memory_map ())),
         ((7 : Nat) : ℝ) ^ ((-1 : ℝ) / 2) *
           (expectationValue (fixStW true false).ham_squared
              ((fixStW true false).sim (fixStW true false).prepare_ansatz
                ((fixStW true false).make_memory_map ()))
             - expectationValue (fixStW true false).ham
                 ((fixStW true false).sim (fixStW true false).prepare_ansatz
                   ((fixStW true false).make_memory_map ())) ^ 2)))
    ∧ (wfOut (fixStW true true) 1 () 7 =
        (expectationValue (fixStW true true).ham
           ((fixStW true true).sim (fixStW true true).prepare_ansatz
             ((fixStW true true).make_memory_map ()))
           + 1 * (((7 : Nat) : ℝ) ^ ((-1 : ℝ) / 2) *
             (expectationValue (fixStW true true).ham_squared
                ((fixStW true true).sim (fixStW true true).prepare_ansatz
                  ((fixStW true true).make_memory_map ()))
               - expectationValue (fixStW true true).ham
                   ((fixStW true true).sim (fixStW true true).prepare_ansatz
                     ((fixStW true true).make_memory_map ())) ^ 2)),
         ((7 : Nat) : ℝ) ^ ((-1 : ℝ) / 2) *
           (expectationValue (fixStW true true).ham_squared
              ((fixStW true true).sim (fixStW true true).prepare_ansatz
                ((fixStW true true).make_memory_map ()))
             - expectationValue (fixStW true true).ham
                 ((fixStW true true).sim (fixStW true true).prepare_ansatz
                   ((fixStW true true).make_memory_map ())) ^ 2))) :=
  ⟨(wfsim_noise_only_on_request (fixStW true false) () none 0 1 7).1 rfl,
   (wfsim_noise_only_on_request (fixStW true false) () none 0 1 7).2.1 rfl,
   (wfsim_noise_only_on_request (fixStW true true) () none 1 1 7).2.2 rfl⟩

end FacadeClaims

section FacadeClaims2

variable {K Q : Type} [CommRing K] [DecidableEq K] [DecidableEq Q]
variable {X Mem Prog Exe S Row : Type} {ι : Type} [Fintype ι]

/-- C2: the simulator facade call returns the expectation value
`E = Re(ψ* H ψ)` and the spread
`sigma = n^(-1/2) * (Re(ψ* H² ψ) - E²)`, where `H` is the hamiltonian
matrix fixed at construction and `H²` is its matrix square, precomputed
at construction as `self.ham_squared = self.ham ** 2`. -/
theorem wfsim_returns_expectation_and_matrix_square_spread :
    (∀ (addrProg : Prog → List (Q × Q) → Prog)
       (pauliMatrix : PauliSum K Q → List (Q × Q) → Nat → Matrix ι ι ℂ)
       (prepare_ansatz : Prog) (make_memory_map : X → Mem)
       (hamiltonian : HamInput K Q ι) (sim : Prog → Mem → ι → ℂ)
       (rsd : Option Bool) (sc : Bool) (nsh : Option Nat) (noisy el : Bool)
       (qm : Option (List (Q × Q))) (w : List Warning) (st : WFSimState X Mem Prog ι),
       WFSim.init addrProg pauliMatrix prepare_ansatz make_memory_map hamiltonian sim
           rsd sc nsh noisy el qm = (w, .ok st) →
       st.ham_squared = st.ham * st.ham)
    ∧ (∀ (st : WFSimState X Mem Prog ι) (g : ℝ) (p : X) (ns : Option Nat) (n : Nat),
        resolveNshots st.scalar st.nshots ns = .ok n →
        st.noisy = false →
        st.ham_squared = st.ham * st.ham →
        wfsimCall g st p ns =
          (let ψ := st.sim st.prepare_ansatz (st.make_memory_map p)
           let E := expectationValue st.ham ψ
           let sig := (n : ℝ) ^ ((-1 : ℝ) / 2) *
             (expectationValue (st.ham * st.ham) ψ - E ^ 2)
           (.ok (if st.scalar then RetVal.scalar E else RetVal.pair (E, sig)),
            { st with log := st.log.map (fun l => l ++ [⟨p, (E, sig)⟩]) }))) := by
  constructor
  · intro addrProg pauliMatrix prepare_ansatz make_memory_map hamiltonian sim
      rsd sc nsh noisy el qm w st h
    simp only [WFSim.init] at h
    split at h
    · simp at h
    · simp only [Prod.mk.injEq, Except.ok.injEq] at h
      obtain ⟨-, h2⟩ := h
      subst h2
      rfl
  · intro st g p ns n hres hn h2
    simp [wfsimCall, hres, wfOut, hn, h2]

/-- Witness for C2: a facade built by `WFSim.init` has
`ham_squared = ham * ham`, and a concrete call returns exactly the
analytic (mean, spread) pair. -/
theorem wfsim_returns_expectation_spread_witness :
    fixStInit.ham_squared = fixStInit.ham * fixStInit.ham
    ∧ wfsimCall 0 (fixStW false false) () (some 3) =
        (let ψ := (fixStW false false).sim (fixStW false false).prepare_ansatz
            ((fixStW false false).make_memory_map ())
         let E := expectationValue (fixStW false false).ham ψ
         let sig := ((3 : Nat) : ℝ) ^ ((-1 : ℝ) / 2) *
           (expectationValue ((fixStW false false).ham * (fixStW false false).ham) ψ - E ^ 2)
         (.ok (if (fixStW false false).scalar then RetVal.scalar E else RetVal.pair (E, sig)),
          { fixStW false false with
              log := (fixStW false false).log.map (fun l => l ++ [⟨(), (E, sig)⟩]) })) :=
  ⟨(@wfsim_returns_expectation_and_matrix_square_spread ℤ ℕ _ _ _ Unit Unit Unit
        (Fin 1) _).1
      (fun pr _ => pr) (fun _ _ _ => 0) () (fun _ => ()) (.matrix 1) (fun _ _ _ => 1)
      none false none false false none [] fixStInit rfl,
   (@wfsim_returns_expectation_and_matrix_square_spread ℤ ℕ _ _ _ Unit Unit Unit
        (Fin 1) _).2
      (fixStW false false) 0 () (some 3) 3 rfl rfl rfl⟩

/-- C4 counterexample: `PrepareAndMeasureOnQVM` with the deprecated
`return_standard_deviation` argument set, `scalar_cost_function = true`
(the default) and `nshots = None` raises the missing-shot-count
`ValueError` without emitting any warning, because the check precedes
the deprecation fallback — refuting the claim that a non-None deprecated
argument always warns and proceeds. -/
theorem qvm_deprecated_arg_raises_counterexample :
    QVM.init ((fun pr _ => pr) : Unit → List (ℕ × ℕ) → Unit)
        ((fun _ => ()) : Unit → Unit)
        ((fun pr _ _ _ => pr) : Unit → Finset ℕ → ℕ → PauliSum ℤ ℕ → Unit) ()
        ((fun _ => ()) : Unit → Unit)
        ⟨[⟨1, [(0, Pauli.Z)]⟩]⟩ (some true) true none 100 none false
      = ([], .error (.valueError "If scalar_cost_function is set, nshots has to be specified")) :=
  rfl

/-- C4 amended: a non-None `return_standard_deviation` makes
`PrepareAndMeasureOnWFSim.__init__` emit the deprecation warning and
proceed with `scalar_cost_function = true`, `nshots = 1000` for every
combination of the other arguments; `PrepareAndMeasureOnQVM.__init__`
does the same provided its missing-`nshots` check (which runs first)
does not fire and the qubit remapping succeeds. -/
theorem deprecated_arg_fallback_amended
    (addrProg : Prog → List (Q × Q) → Prog)
    (pauliMatrix : PauliSum K Q → List (Q × Q) → Nat → Matrix ι ι ℂ)
    (prepare_ansatz : Prog) (make_memory_map : X → Mem)
    (hamiltonianW : HamInput K Q ι) (sim : Prog → Mem → ι → ℂ)
    (compile : Prog → Exe)
    (appendMeasure : Prog → Finset Q → Nat → PauliSum K Q → Prog)
    (hamiltonianQ : PauliSum K Q) (base_numshots : Nat)
    (b sc : Bool) (nsh : Option Nat) (noisy el : Bool)
    (qm : Option (List (Q × Q))) :
    (∃ st, WFSim.init addrProg pauliMatrix prepare_ansatz make_memory_map
         hamiltonianW sim (some b) sc nsh noisy el qm
         = ([Warning.deprecation], .ok st)
       ∧ st.scalar = true ∧ st.nshots = some 1000)
    ∧ ((sc && nsh.isNone) = false →
       (∀ m, qm = some m → ∃ h2, address_qubits_hamiltonian hamiltonianQ m = .ok h2) →
       ∃ st, QVM.init addrProg compile appendMeasure prepare_ansatz
           make_memory_map hamiltonianQ (some b) sc nsh base_numshots qm el
           = ([Warning.deprecation], .ok st)
         ∧ st.scalar = true ∧ st.nshots = some 1000) := by
  constructor
  · refine ⟨_, rfl, ?_, ?_⟩ <;> rfl
  · intro hguard hmap
    cases hqm : qm with
    | none =>
        subst hqm
        simp only [QVM.init, hguard, Bool.false_eq_true, if_false]
        exact ⟨_, rfl, rfl, rfl⟩
    | some m =>
        obtain ⟨h2, hh⟩ := hmap m hqm
        subst hqm
        simp only [QVM.init, hguard, Bool.false_eq_true, if_false, hh, Except.bind]
        exact ⟨_, rfl, rfl, rfl⟩

/-- Witness for C4's amended claim at concrete inputs. -/
theorem deprecated_arg_fallback_amended_witness :
    (∃ st, WFSim.init ((fun pr _ => pr) : Unit → List (ℕ × ℕ) → Unit)
         ((fun _ _ _ => 0) : PauliSum ℤ ℕ → List (ℕ × ℕ) → ℕ → Matrix (Fin 1) (Fin 1) ℂ)
         () ((fun _ => ()) : Unit → Unit)
         (.matrix 1) (fun _ _ _ => 1) (some true) false none false false none
         = ([Warning.deprecation], .ok st)
       ∧ st.scalar = true ∧ st.nshots = some 1000)
    ∧ (∃ st, QVM.init ((fun pr _ => pr) : Unit → List (ℕ × ℕ) → Unit)
         ((fun _ => ()) : Unit → Unit)
         ((fun pr _ _ _ => pr) : Unit → Finset ℕ → ℕ → PauliSum ℤ ℕ → Unit) ()
         ((fun _ => ()) : Unit → Unit)
         ⟨[⟨1, [(0, Pauli.Z)]⟩]⟩ (some true) false none 100 none false
         = ([Warning.deprecation], .ok st)
       ∧ st.scalar = true ∧ st.nshots = some 1000) :=
  ⟨(deprecated_arg_fallback_amended ((fun pr _ => pr) : Unit → List (ℕ × ℕ) → Unit)
      ((fun _ _ _ => 0) : PauliSum ℤ ℕ → List (ℕ × ℕ) → ℕ → Matrix (Fin 1) (Fin 1) ℂ)
      () ((fun _ => ()) : Unit → Unit)
      (.matrix 1) (fun _ _ _ => 1) ((fun _ => ()) : Unit → Unit)
      ((fun pr _ _ _ => pr) : Unit → Finset ℕ → ℕ → PauliSum ℤ ℕ → Unit)
      ⟨[⟨1, [(0, Pauli.Z)]⟩]⟩ 100 true false none false false none).1,
   (deprecated_arg_fallback_amended ((fun pr _ => pr) : Unit → List (ℕ × ℕ) → Unit)
      ((fun _ _ _ => 0) : PauliSum ℤ ℕ → List (ℕ × ℕ) → ℕ → Matrix (Fin 1) (Fin 1) ℂ)
      () ((fun _ => ()) : Unit → Unit)
      (.matrix 1) (fun _ _ _ => 1) ((fun _ => ()) : Unit → Unit)
      ((fun pr _ _ _ => pr) : Unit → Finset ℕ → ℕ → PauliSum ℤ ℕ → Unit)
      ⟨[⟨1, [(0, Pauli.Z)]⟩]⟩ 100 true false none false false none).2
      rfl (fun m h => nomatch h)⟩

lemma runAccum_eq_seqRuns (run : S → Exe → Mem → List Row × S) (mem : Mem) (exe : Exe) :
    ∀ (k : Nat) (b : List Row) (s : S),
      runAccum run mem exe k (b, s)
        = (b ++ (seqRuns run mem exe k s).1.join, (seqRuns run mem exe k s).2)
  | 0, b, s => by simp [runAccum, seqRuns]
  | k + 1, b, s => by
      simp [runAccum, seqRuns, runAccum_eq_seqRuns run mem exe k, List.append_assoc]

lemma qvmRunGroups_eq_seqGroups (run : S → Exe → Mem → List Row × S) (mem : Mem)
    {n : Nat} (hn : 1 ≤ n) :
    ∀ (exes : List Exe) (s : S),
      qvmRunGroups run mem n exes s
        = ((seqGroups run mem n exes s).1.map List.join, (seqGroups run mem n exes s).2)
  | [], s => by simp [qvmRunGroups, seqGroups]
  | exe :: rest, s => by
      obtain ⟨m, rfl⟩ : ∃ m, n = m + 1 := ⟨n - 1, (Nat.succ_pred_eq_of_pos hn).symm⟩
      simp only [qvmRunGroups, seqGroups, Nat.add_sub_cancel,
        runAccum_eq_seqRuns run mem exe m, seqRuns,
        qvmRunGroups_eq_seqGroups run mem hn rest]
      simp [List.join]

/-- C1: for a resolved shot count `n ≥ 1`, the sampling facade call is
exactly the reference process: the commuting groups are processed one at
a time in decomposition order with the backend state threaded through
sequentially, each group's executable is run exactly `n` times with the
same memory map, and the batch handed to the estimator for each group is
the row-wise concatenation of its `n` run results in invocation order. -/
theorem qvm_call_sequential_shot_accumulation
    (run : S → Exe → Mem → List Row × S)
    (expectation : List (PauliSum K Q) → List (List Row) → ℝ × ℝ)
    (st : QVMState X Mem Exe K Q) (s0 : S) (p : X) (nsArg : Option Nat)
    (n : Nat) (hres : resolveNshots st.scalar st.nshots nsArg = .ok n) (hn : 1 ≤ n) :
    qvmCall run expectation st s0 p nsArg =
      (let mem := st.make_memory_map p
       let groups := seqGroups run mem n st.exes s0
       let out := expectation st.hams (groups.1.map List.join)
       (.ok (if st.scalar then RetVal.scalar out.1 else RetVal.pair out),
        { st with log := st.log.map (fun l => l ++ [⟨p, out⟩]) },
        groups.2)) := by
  simp [qvmCall, hres, qvmRunGroups_eq_seqGroups run (st.make_memory_map p) hn]

/-- Witness for C1 at a concrete two-group facade with two shots. -/
theorem qvm_call_sequential_shot_accumulation_witness :
    qvmCall fixRun fixExp (fixStQ true) 0 () (some 2) =
      (let mem := (fixStQ true).make_memory_map ()
       let groups := seqGroups fixRun mem 2 (fixStQ true).exes 0
       let out := fixExp (fixStQ true).hams (groups.1.map List.join)
       (.ok (if (fixStQ true).scalar then RetVal.scalar out.1 else RetVal.pair out),
        { fixStQ true with log := (fixStQ true).log.map (fun l => l ++ [⟨(), out⟩]) },
        groups.2)) :=
  qvm_call_sequential_shot_accumulation fixRun fixExp (fixStQ true) 0 () (some 2) 2
    rfl (by decide)

end FacadeClaims2

section LoggingHarness

variable {K Q : Type} [CommRing K] [DecidableEq K] [DecidableEq Q]
variable {X Mem Prog Exe S Row : Type} {ι : Type} [Fintype ι]

lemma wfsimCall_some (g : ℝ) (st : WFSimState X Mem Prog ι) (p : X) (n : Nat) :
    wfsimCall g st p (some n)
      = (.ok (if st.scalar then RetVal.scalar (wfOut st g p n).1
              else RetVal.pair (wfOut st g p n)),
         { st with log := st.log.map (fun l => l ++ [⟨p, wfOut st g p n⟩]) }) := rfl

lemma wfSnapshots_set_log (st : WFSimState X Mem Prog ι)
    (l : Option (List (LogEntry X))) :
    ∀ (acts : List (WFAct X)) (h : Nat → X),
      wfSnapshots { st with log := l } h acts = wfSnapshots st h acts
  | [], _ => rfl
  | WFAct.call a n g :: acts, h => by
      simp only [wfSnapshots, wfSnapshots_set_log st l acts h]
      rfl
  | WFAct.write a v :: acts, h => by
      simp only [wfSnapshots, wfSnapshots_set_log st l acts]

lemma wfSnapshots_after_call (g : ℝ) (st : WFSimState X Mem Prog ι) (p : X)
    (ns : Option Nat) (acts : List (WFAct X)) (h : Nat → X) :
    wfSnapshots ((wfsimCall g st p ns).2) h acts = wfSnapshots st h acts := by
  cases hres : resolveNshots st.scalar st.nshots ns with
  | error e => simp [wfsimCall, hres]
  | ok n => simp [wfsimCall, hres, wfSnapshots_set_log]

lemma wfRun_log : ∀ (acts : List (WFAct X)) (w : WFWorld X Mem Prog ι)
    (l0 : List (LogEntry X)), w.st.log = some l0 →
    (wfRun w acts).st.log = some (l0 ++ wfSnapshots w.st w.heap acts)
  | [], w, l0, hl => by simp [wfRun, wfSnapshots, hl]
  | WFAct.call a n g :: acts, w, l0, hl => by
      have h2 : (wfStep w (WFAct.call a n g)).st.log
          = some (l0 ++ [⟨w.heap a, wfOut w.st g (w.heap a) n⟩]) := by
        simp [wfStep, wfsimCall_some, hl]
      have hIH := wfRun_log acts (wfStep w (WFAct.call a n g)) _ h2
      have hw : wfRun w (WFAct.call a n g :: acts)
          = wfRun (wfStep w (WFAct.call a n g)) acts := rfl
      rw [hw, hIH]
      have hsnap : wfSnapshots (wfStep w (WFAct.call a n g)).st
            (wfStep w (WFAct.call a n g)).heap acts
          = wfSnapshots w.st w.heap acts := by
        simp only [wfStep]
        exact wfSnapshots_after_call g w.st (w.heap a) (some n) acts w.heap
      rw [hsnap]
      simp [wfSnapshots]
  | WFAct.write a v :: acts, w, l0, hl => by
      have hIH := wfRun_log acts (wfStep w (WFAct.write a v)) l0 (by simpa [wfStep] using hl)
      have hw : wfRun w (WFAct.write a v :: acts)
          = wfRun (wfStep w (WFAct.write a v)) acts := rfl
      rw [hw, hIH]
      simp [wfStep, wfSnapshots]

lemma wfSnapshots_length (st0 : WFSimState X Mem Prog ι) :
    ∀ (acts : List (WFAct X)) (h : Nat → X),
      (wfSnapshots st0 h acts).length = acts.countP WFAct.isCall
  | [], _ => rfl
  | WFAct.call a n g :: acts, h => by
      simp [wfSnapshots, wfSnapshots_length st0 acts, List.countP_cons, WFAct.isCall]
  | WFAct.write a v :: acts, h => by
      simp [wfSnapshots, wfSnapshots_length st0 acts, List.countP_cons, WFAct.isCall]

lemma wfRun_writes_preserve_st : ∀ (ms : List (WFAct X)) (w : WFWorld X Mem Prog ι),
    (∀ m ∈ ms, WFAct.isCall m = false) → (wfRun w ms).st = w.st
  | [], w, _ => rfl
  | WFAct.call a n g :: ms, w, h => by
      have := h _ (List.mem_cons_self _ _)
      simp [WFAct.isCall] at this
  | WFAct.write a v :: ms, w, h => by
      have hIH := wfRun_writes_preserve_st ms (wfStep w (WFAct.write a v))
        (fun x hx => h x (List.mem_cons_of_mem _ hx))
      simpa [wfRun, wfStep] using hIH

lemma qvmCall_some (run : S → Exe → Mem → List Row × S)
    (expectation : List (PauliSum K Q) → List (List Row) → ℝ × ℝ)
    (st : QVMState X Mem Exe K Q) (s : S) (p : X) (n : Nat) :
    qvmCall run expectation st s p (some n)
      = (.ok (if st.scalar
              then RetVal.scalar (qvmOut run expectation st s p n).1.1
              else RetVal.pair (qvmOut run expectation st s p n).1),
         { st with
            log := st.log.map (fun l => l ++ [⟨p, (qvmOut run expectation st s p n).1⟩]) },
         (qvmOut run expectation st s p n).2) := rfl

lemma qSnapshots_set_log (run : S → Exe → Mem → List Row × S)
    (expectation : List (PauliSum K Q) → List (List Row) → ℝ × ℝ)
    (st : QVMState X Mem Exe K Q) (l : Option (List (LogEntry X))) :
    ∀ (acts : List (QAct X)) (h : Nat → X) (s : S),
      qSnapshots run expectation { st with log := l } h s acts
        = qSnapshots run expectation st h s acts
  | [], _, _ => rfl
  | QAct.call a n :: acts, h, s => by
      simp only [qSnapshots, qSnapshots_set_log run expectation st l acts]
      rfl
  | QAct.write a v :: acts, h, s => by
      simp only [qSnapshots, qSnapshots_set_log run expectation st l acts]

lemma qRun_log (run : S → Exe → Mem → List Row × S)
    (expectation : List (PauliSum K Q) → List (List Row) → ℝ × ℝ) :
    ∀ (acts : List (QAct X)) (w : QWorld X Mem Exe K Q S)
      (l0 : List (LogEntry X)), w.st.log = some l0 →
      (qRun run expectation w acts).st.log
        = some (l0 ++ qSnapshots run expectation w.st w.heap w.backend acts)
  | [], w, l0, hl => by simp [qRun, qSnapshots, hl]
  | QAct.call a n :: acts, w, l0, hl => by
      have h2 : (qStep run expectation w (QAct.call a n)).st.log
          = some (l0 ++ [⟨w.heap a,
              (qvmOut run expectation w.st w.backend (w.heap a) n).1⟩]) := by
        simp [qStep, qvmCall_some, hl]
      have hIH := qRun_log run expectation acts (qStep run expectation w (QAct.call a n)) _ h2
      have hw : qRun run expectation w (QAct.call a n :: acts)
          = qRun run expectation (qStep run expectation w (QAct.call a n)) acts := rfl
      rw [hw, hIH]
      have hsnap : qSnapshots run expectation (qStep run expectation w (QAct.call a n)).st
            (qStep run expectation w (QAct.call a n)).heap
            (qStep run expectation w (QAct.call a n)).backend acts
          = qSnapshots run expectation w.st w.heap
              (qvmOut run expectation w.st w.backend (w.heap a) n).2 acts := by
        simp only [qStep, qvmCall_some]
        exact qSnapshots_set_log run expectation w.st _ acts w.heap _
      rw [hsnap]
      simp [qSnapshots]
  | QAct.write a v :: acts, w, l0, hl => by
      have hIH := qRun_log run expectation acts (qStep run expectation w (QAct.write a v)) l0
        (by simpa [qStep] using hl)
      have hw : qRun run expectation w (QAct.write a v :: acts)
          = qRun run expectation (qStep run expectation w (QAct.write a v)) acts := rfl
      rw [hw, hIH]
      simp [qStep, qSnapshots]

lemma qSnapshots_length (run : S → Exe → Mem → List Row × S)
    (expectation : List (PauliSum K Q) → List (List Row) → ℝ × ℝ)
    (st0 : QVMState X Mem Exe K Q) :
    ∀ (acts : List (QAct X)) (h : Nat → X) (s : S),
      (qSnapshots run expectation st0 h s acts).length = acts.countP QAct.isCall
  | [], _, _ => rfl
  | QAct.call a n :: acts, h, s => by
      simp [qSnapshots, qSnapshots_length run expectation st0 acts,
        List.countP_cons, QAct.isCall]
  | QAct.write a v :: acts, h, s => by
      simp [qSnapshots, qSnapshots_length run expectation st0 acts,
        List.countP_cons, QAct.isCall]

lemma qRun_writes_preserve_st (run : S → Exe → Mem → List Row × S)
    (expectation : List (PauliSum K Q) → List (List Row) → ℝ × ℝ) :
    ∀ (ms : List (QAct X)) (w : QWorld X Mem Exe K Q S),
      (∀ m ∈ ms, QAct.isCall m = false) → (qRun run expectation w ms).st = w.st
  | [], w, _ => rfl
  | QAct.call a n :: ms, w, h => by
      have := h _ (List.mem_cons_self _ _)
      simp [QAct.isCall] at this
  | QAct.write a v :: ms, w, h => by
      have hIH := qRun_writes_preserve_st run expectation ms
        (qStep run expectation w (QAct.write a v))
        (fun x hx => h x (List.mem_cons_of_mem _ hx))
      simpa [qRun, qStep] using hIH

/-- C5: with logging enabled (`log = some l0`), running any sequence of
caller actions leaves the log equal to `l0` followed by exactly one
entry per successful call, in call order; each entry's `x` is the value
the caller's mutable parameter array held at call time and its `fn` is
the full (mean, stderr) pair regardless of the facade's return mode; and
any later in-place mutations of the caller's arrays (a write-only action
suffix) leave the log unchanged.  Stated for both facades. -/
theorem logging_appends_deepcopied_snapshots_in_order
    (w : WFWorld X Mem Prog ι) (l0 : List (LogEntry X)) (acts ms : List (WFAct X))
    (hl : w.st.log = some l0) (hms : ∀ m ∈ ms, WFAct.isCall m = false)
    (run : S → Exe → Mem → List Row × S)
    (expectation : List (PauliSum K Q) → List (List Row) → ℝ × ℝ)
    (wq : QWorld X Mem Exe K Q S) (lq0 : List (LogEntry X)) (qacts qms : List (QAct X))
    (hlq : wq.st.log = some lq0) (hqms : ∀ m ∈ qms, QAct.isCall m = false) :
    ((wfRun w acts).st.log = some (l0 ++ wfSnapshots w.st w.heap acts))
    ∧ ((wfSnapshots w.st w.heap acts).length = acts.countP WFAct.isCall)
    ∧ ((wfRun w (acts ++ ms)).st.log = (wfRun w acts).st.log)
    ∧ ((qRun run expectation wq qacts).st.log
        = some (lq0 ++ qSnapshots run expectation wq.st wq.heap wq.backend qacts))
    ∧ ((qSnapshots run expectation wq.st wq.heap wq.backend qacts).length
        = qacts.countP QAct.isCall)
    ∧ ((qRun run expectation wq (qacts ++ qms)).st.log
        = (qRun run expectation wq qacts).st.log) := by
  refine ⟨wfRun_log acts w l0 hl, wfSnapshots_length w.st acts w.heap, ?_,
    qRun_log run expectation qacts wq lq0 hlq,
    qSnapshots_length run expectation wq.st qacts wq.heap wq.backend, ?_⟩
  · have : wfRun w (acts ++ ms) = wfRun (wfRun w acts) ms := List.foldl_append _ _ _ _
    rw [this, wfRun_writes_preserve_st ms (wfRun w acts) hms]
  · have : qRun run expectation wq (qacts ++ qms)
        = qRun run expectation (qRun run expectation wq qacts) qms :=
      List.foldl_append _ _ _ _
    rw [this, qRun_writes_preserve_st run expectation qms
      (qRun run expectation wq qacts) hqms]

/-- Witness for C5 on concrete worlds, action lists and mutation suffixes. -/
theorem logging_appends_snapshots_witness :
    ((wfRun ⟨fun _ => (), fixStW true false⟩
        [WFAct.call 0 2 0, WFAct.write 0 (), WFAct.call 1 3 0]).st.log
      = some ([] ++ wfSnapshots (fixStW true false) (fun _ => ())
          [WFAct.call 0 2 0, WFAct.write 0 (), WFAct.call 1 3 0]))
    ∧ ((wfSnapshots (fixStW true false) (fun _ => ())
          [WFAct.call 0 2 0, WFAct.write 0 (), WFAct.call 1 3 0]).length
      = ([WFAct.call 0 2 0, WFAct.write 0 (), WFAct.call 1 3 0] :
          List (WFAct Unit)).countP WFAct.isCall)
    ∧ ((wfRun ⟨fun _ => (), fixStW true false⟩
        ([WFAct.call 0 2 0, WFAct.write 0 (), WFAct.call 1 3 0] ++ [WFAct.write 0 ()])).st.log
      = (wfRun ⟨fun _ => (), fixStW true false⟩
          [WFAct.call 0 2 0, WFAct.write 0 (), WFAct.call 1 3 0]).st.log)
    ∧ ((qRun fixRun fixExp ⟨fun _ => (), fixStQ true, 0⟩
        [QAct.call 0 2, QAct.write 0 (), QAct.call 1 3]).st.log
      = some ([] ++ qSnapshots fixRun fixExp (fixStQ true) (fun _ => ()) 0
          [QAct.call 0 2, QAct.write 0 (), QAct.call 1 3]))
    ∧ ((qSnapshots fixRun fixExp (fixStQ true) (fun _ => ()) 0
          [QAct.call 0 2, QAct.write 0 (), QAct.call 1 3]).length
      = ([QAct.call 0 2, QAct.write 0 (), QAct.call 1 3] :
          List (QAct Unit)).countP QAct.isCall)
    ∧ ((qRun fixRun fixExp ⟨fun _ => (), fixStQ true, 0⟩
        ([QAct.call 0 2, QAct.write 0 (), QAct.call 1 3] ++ [QAct.write 0 ()])).st.log
      = (qRun fixRun fixExp ⟨fun _ => (), fixStQ true, 0⟩
          [QAct.call 0 2, QAct.write 0 (), QAct.call 1 3]).st.log) :=
  logging_appends_deepcopied_snapshots_in_order
    ⟨fun _ => (), fixStW true false⟩ [] [WFAct.call 0 2 0, WFAct.write 0 (), WFAct.call 1 3 0]
    [WFAct.write 0 ()] rfl (by simp [WFAct.isCall])
    fixRun fixExp ⟨fun _ => (), fixStQ true, 0⟩ [] [QAct.call 0 2, QAct.write 0 (), QAct.call 1 3]
    [QAct.write 0 ()] rfl (by simp [QAct.isCall])

end LoggingHarness

section ObservableLemmas

variable {K Q : Type} [CommRing K] [DecidableEq K] [DecidableEq Q]

lemma remapTerm_qubits (f : Q → Q) (t : PauliTerm K Q) :
    (remapTerm f t).qubits = t.qubits.map f := by
  simp [remapTerm, PauliTerm.qubits, List.map_map]

lemma remapTerm_opsKey (f : Q → Q) (t : PauliTerm K Q) :
    (remapTerm f t).opsKey = t.opsKey.image (fun p => (f p.1, p.2)) := by
  simp only [remapTerm, PauliTerm.opsKey]
  ext a
  simp

lemma mem_get_qubits {s : PauliSum K Q} {q : Q} :
    q ∈ s.get_qubits ↔ ∃ t ∈ s.terms, q ∈ t.qubits := by
  obtain ⟨ts⟩ := s
  induction ts with
  | nil => simp [PauliSum.get_qubits]
  | cons t ts ih =>
      simp only [PauliSum.get_qubits, List.foldr_cons, Finset.mem_union,
        List.mem_toFinset, List.mem_cons] at ih ⊢
      constructor
      · rintro (h | h)
        · exact ⟨t, Or.inl rfl, h⟩
        · obtain ⟨u, hu, hq⟩ := ih.mp h
          exact ⟨u, Or.inr hu, hq⟩
      · rintro ⟨u, (rfl | hu), hq⟩
        · exact Or.inl hq
        · exact Or.inr (ih.mpr ⟨u, hu, hq⟩)

lemma dedupFirst_of_nodup {α : Type} [DecidableEq α] :
    ∀ {l : List α}, l.Nodup → dedupFirst l = l
  | [], _ => rfl
  | a :: l, h => by
      obtain ⟨ha, hl⟩ := List.nodup_cons.mp h
      rw [dedupFirst, dedupFirst_of_nodup hl, List.filter_eq_self.mpr]
      intro b hb
      simp only [decide_eq_true_eq]
      exact fun hba => ha (hba ▸ hb)

lemma filter_opsKey_eq_single :
    ∀ {ts : List (PauliTerm K Q)} {t : PauliTerm K Q},
      (ts.map PauliTerm.opsKey).Nodup → t ∈ ts →
      ts.filter (fun u => decide (u.opsKey = t.opsKey)) = [t]
  | [], t, _, ht => absurd ht (List.not_mem_nil t)
  | u :: ts, t, hk, ht => by
      rw [List.map_cons, List.nodup_cons] at hk
      obtain ⟨hu, hts⟩ := hk
      rcases List.mem_cons.mp ht with rfl | ht'
      · have htail : ts.filter (fun v => decide (v.opsKey = t.opsKey)) = [] := by
          rw [List.filter_eq_nil_iff]
          intro v hv
          simp only [decide_eq_true_eq]
          exact fun he => hu (he ▸ List.mem_map_of_mem PauliTerm.opsKey hv)
        simp [List.filter_cons, htail]
      · have hne : ¬ (u.opsKey = t.opsKey) := by
          intro he
          exact hu (he ▸ List.mem_map_of_mem PauliTerm.opsKey ht')
        simp only [List.filter_cons, decide_eq_true_eq]
        rw [if_neg hne]
        exact filter_opsKey_eq_single hts ht'

lemma mergeGroup_of_mem {ts : List (PauliTerm K Q)} {t : PauliTerm K Q}
    (hk : (ts.map PauliTerm.opsKey).Nodup) (ht : t ∈ ts) (hc : t.coefficient ≠ 0) :
    mergeGroup ts t.opsKey = some t := by
  simp only [mergeGroup, filter_opsKey_eq_single hk ht, List.map_nil,
    List.sum_nil, add_zero, if_neg hc]

lemma filterMap_mergeGroup (ts : List (PauliTerm K Q)) :
    ∀ (us : List (PauliTerm K Q)), (∀ u ∈ us, mergeGroup ts u.opsKey = some u) →
      (us.map PauliTerm.opsKey).filterMap (mergeGroup ts) = us
  | [], _ => rfl
  | u :: us, h => by
      simp only [List.map_cons, List.filterMap_cons, h u (List.mem_cons_self _ _)]
      rw [filterMap_mergeGroup ts us (fun v hv => h v (List.mem_cons_of_mem _ hv))]

lemma simplifyTerms_of_simplified {ts : List (PauliTerm K Q)}
    (hk : (ts.map PauliTerm.opsKey).Nodup) (hc : ∀ t ∈ ts, t.coefficient ≠ 0)
    (hne : ts ≠ []) : simplifyTerms ts = ts := by
  have hmerge : ∀ t ∈ ts, mergeGroup ts t.opsKey = some t :=
    fun t ht => mergeGroup_of_mem hk ht (hc t ht)
  simp only [simplifyTerms, dedupFirst_of_nodup hk, filterMap_mergeGroup ts ts hmerge,
    if_neg hne]

lemma simplifyTerms_seed (t : PauliTerm K Q) (hc : t.coefficient ≠ 0)
    (hops : t.ops ≠ []) :
    simplifyTerms [⟨0, []⟩, t] = [t] := by
  have hkey : ¬ (t.opsKey = (⟨0, []⟩ : PauliTerm K Q).opsKey) := by
    simp only [PauliTerm.opsKey, List.toFinset_nil]
    simpa [List.toFinset_eq_empty_iff] using hops
  have h1 : mergeGroup [(⟨0, []⟩ : PauliTerm K Q), t]
      (⟨0, []⟩ : PauliTerm K Q).opsKey = none := by
    simp [mergeGroup, List.filter_cons, hkey]
  have h2 : mergeGroup [(⟨0, []⟩ : PauliTerm K Q), t] t.opsKey = some t := by
    have hne2 : ¬ ((⟨0, []⟩ : PauliTerm K Q).opsKey = t.opsKey) := fun he => hkey he.symm
    simp [mergeGroup, List.filter_cons, hne2, hc]
  simp [simplifyTerms, dedupFirst, List.filter_cons, hkey, h1, h2]

lemma addressTermOps_eq (m : List (Q × Q)) :
    ∀ (ops : List (Q × Pauli)),
      (∀ q ∈ ops.map Prod.fst, qubitLookup m q = .ok (mappingFun m q)) →
      addressTermOps m ops = .ok (ops.map (fun p => (p.2, mappingFun m p.1)))
  | [], _ => rfl
  | p :: ops, h => by
      have h1 := h p.1 (by simp)
      have h2 := addressTermOps_eq m ops (fun q hq => h q (by simp [hq]))
      simp only [addressTermOps, h1, h2]
      rfl

lemma filterMap_no_identity (f : Q → Q) :
    ∀ (ops : List (Q × Pauli)), (∀ p ∈ ops, p.2 ≠ Pauli.I) →
      ((ops.map (fun p => (p.2, f p.1))).filterMap
        (fun p => if p.1 = Pauli.I then none else some (p.2, p.1)))
      = ops.map (fun p => (f p.1, p.2))
  | [], _ => rfl
  | p :: ops, h => by
      simp only [List.map_cons, List.filterMap_cons, if_neg (h p (by simp))]
      rw [filterMap_no_identity f ops (fun q hq => h q (by simp [hq]))]

lemma fromList_remap (f : Q → Q) (t : PauliTerm K Q)
    (hops : t.ops ≠ []) (hI : ∀ p ∈ t.ops, p.2 ≠ Pauli.I)
    (hnd : (t.ops.map (fun p => f p.1)).Nodup) :
    PauliTerm.fromList (t.ops.map (fun p => (p.2, f p.1))) t.coefficient
      = .ok (remapTerm f t) := by
  obtain ⟨c, ops⟩ := t
  cases ops with
  | nil => exact absurd rfl hops
  | cons o ops' =>
      simp only [PauliTerm.fromList, List.map_cons]
      rw [if_pos]
      · have hres := filterMap_no_identity f (o :: ops') hI
        simp only [List.map_cons] at hres
        rw [hres]
        rfl
      · simpa [List.map_map, Function.comp] using hnd

lemma addressStep_ok (m : List (Q × Q)) (out : PauliSum K Q) (t : PauliTerm K Q)
    (hops : t.ops ≠ []) (hI : ∀ p ∈ t.ops, p.2 ≠ Pauli.I)
    (hnd : (t.ops.map (fun p => mappingFun m p.1)).Nodup)
    (hcov : ∀ q ∈ t.qubits, qubitLookup m q = .ok (mappingFun m q)) :
    addressStep m out t = .ok (out.addTerm (remapTerm (mappingFun m) t)) := by
  have h1 := addressTermOps_eq m t.ops hcov
  have h2 := fromList_remap (mappingFun m) t hops hI hnd
  simp only [addressStep, h1]
  show (PauliTerm.fromList (t.ops.map (fun p => (p.2, mappingFun m p.1)))
      t.coefficient).bind (fun u => pure (out.addTerm u))
    = .ok (out.addTerm (remapTerm (mappingFun m) t))
  rw [h2]
  rfl

lemma foldlM_addressStep_exact (m : List (Q × Q)) :
    ∀ (ts : List (PauliTerm K Q)) (acc : List (PauliTerm K Q)),
      acc ≠ [] →
      (∀ t ∈ acc, t.coefficient ≠ 0) →
      ((acc ++ ts.map (remapTerm (mappingFun m))).map PauliTerm.opsKey).Nodup →
      (∀ t ∈ ts, t.ops ≠ [] ∧ (∀ p ∈ t.ops, p.2 ≠ Pauli.I) ∧ t.coefficient ≠ 0
        ∧ (t.ops.map (fun p => mappingFun m p.1)).Nodup
        ∧ (∀ q ∈ t.qubits, qubitLookup m q = .ok (mappingFun m q))) →
      List.foldlM (addressStep m) (⟨acc⟩ : PauliSum K Q) ts
        = .ok ⟨acc ++ ts.map (remapTerm (mappingFun m))⟩
  | [], acc, _, _, _, _ => by
      simp only [List.map_nil, List.append_nil, List.foldlM_nil]
      rfl
  | t :: ts, acc, hne, hacc, hkeys, hts => by
      obtain ⟨h1, h2, h3, h4, h5⟩ := hts t (List.mem_cons_self _ _)
      have hstep := addressStep_ok m ⟨acc⟩ t h1 h2 h4 h5
      have hrearrange : acc ++ (t :: ts).map (remapTerm (mappingFun m))
          = (acc ++ [remapTerm (mappingFun m) t]) ++ ts.map (remapTerm (mappingFun m)) := by
        simp
      have hkeys2 : (((acc ++ [remapTerm (mappingFun m) t])
          ++ ts.map (remapTerm (mappingFun m))).map PauliTerm.opsKey).Nodup := by
        rw [← hrearrange]
        exact hkeys
      have hkeys' : ((acc ++ [remapTerm (mappingFun m) t]).map PauliTerm.opsKey).Nodup := by
        rw [List.map_append] at hkeys2
        exact (List.nodup_append.mp hkeys2).1
      have hcoeffs : ∀ u ∈ acc ++ [remapTerm (mappingFun m) t], u.coefficient ≠ 0 := by
        intro u hu
        rcases List.mem_append.mp hu with h | h
        · exact hacc u h
        · rw [List.mem_singleton.mp h]
          exact h3
      have haddT : (⟨acc⟩ : PauliSum K Q).addTerm (remapTerm (mappingFun m) t)
          = ⟨acc ++ [remapTerm (mappingFun m) t]⟩ := by
        unfold PauliSum.addTerm
        rw [simplifyTerms_of_simplified hkeys' hcoeffs (by simp)]
      have hIH := foldlM_addressStep_exact m ts (acc ++ [remapTerm (mappingFun m) t])
        (by simp) hcoeffs hkeys2 (fun v hv => hts v (List.mem_cons_of_mem _ hv))
      rw [List.foldlM_cons, hstep]
      show List.foldlM (addressStep m)
        ((⟨acc⟩ : PauliSum K Q).addTerm (remapTerm (mappingFun m) t)) ts = _
      rw [haddT, hIH, ← hrearrange]

lemma finset_image_eq_of_injOn {α β : Type} [DecidableEq α] [DecidableEq β]
    (g : α → β) (s t : Finset α)
    (H : ∀ a ∈ s ∪ t, ∀ b ∈ s ∪ t, g a = g b → a = b)
    (heq : s.image g = t.image g) : s = t := by
  ext a
  constructor
  · intro ha
    have hmem : g a ∈ t.image g := heq ▸ Finset.mem_image_of_mem g ha
    obtain ⟨b, hb, hba⟩ := Finset.mem_image.mp hmem
    exact (H b (Finset.mem_union_right _ hb) a (Finset.mem_union_left _ ha) hba) ▸ hb
  · intro ha
    have hmem : g a ∈ s.image g := heq ▸ Finset.mem_image_of_mem g ha
    obtain ⟨b, hb, hba⟩ := Finset.mem_image.mp hmem
    exact (H b (Finset.mem_union_left _ hb) a (Finset.mem_union_right _ ha) hba) ▸ hb

lemma get_qubits_map_remap (f : Q → Q) (ts : List (PauliTerm K Q)) :
    (⟨ts.map (remapTerm f)⟩ : PauliSum K Q).get_qubits
      = (⟨ts⟩ : PauliSum K Q).get_qubits.image f := by
  ext q
  simp only [mem_get_qubits, Finset.mem_image]
  constructor
  · rintro ⟨u, hu, hq⟩
    obtain ⟨t, ht, rfl⟩ := List.mem_map.mp hu
    rw [remapTerm_qubits] at hq
    obtain ⟨a, ha, rfl⟩ := List.mem_map.mp hq
    exact ⟨a, ⟨t, ht, ha⟩, rfl⟩
  · rintro ⟨a, ⟨t, ht, ha'⟩, rfl⟩
    refine ⟨remapTerm f t, List.mem_map_of_mem (remapTerm f) ht, ?_⟩
    rw [remapTerm_qubits]
    exact List.mem_map_of_mem f ha'

lemma mappingFun_image_keys :
    ∀ (m : List (Q × Q)), (m.map Prod.fst).Nodup →
      ((m.map Prod.fst).toFinset).image (mappingFun m) = (m.map Prod.snd).toFinset
  | [], _ => by simp
  | (q, i) :: m, h => by
      rw [List.map_cons, List.nodup_cons] at h
      obtain ⟨hq, hm⟩ := h
      have hhead : mappingFun ((q, i) :: m) q = i := by
        simp [mappingFun, qubitLookup]
      have hagree : ∀ x ∈ (m.map Prod.fst).toFinset,
          mappingFun ((q, i) :: m) x = mappingFun m x := by
        intro x hx
        have hxq : ¬ (q = x) := by
          intro e
          exact hq (by simpa [← e] using hx)
        simp [mappingFun, qubitLookup, hxq]
      have himg : (m.map Prod.fst).toFinset.image (mappingFun ((q, i) :: m))
          = (m.map Prod.fst).toFinset.image (mappingFun m) :=
        Finset.image_congr hagree
      simp only [List.map_cons, List.toFinset_cons, Finset.image_insert, hhead, himg,
        mappingFun_image_keys m hm]

lemma address_exact (h : PauliSum K Q) (m : List (Q × Q))
    (hne : h.terms ≠ [])
    (hterms : ∀ t ∈ h.terms, t.ops ≠ [] ∧ t.qubits.Nodup
      ∧ (∀ p ∈ t.ops, p.2 ≠ Pauli.I) ∧ t.coefficient ≠ 0)
    (hkeys : (h.terms.map PauliTerm.opsKey).Nodup)
    (hcov : ∀ q ∈ h.get_qubits, qubitLookup m q = .ok (mappingFun m q))
    (hinj : ∀ a ∈ h.get_qubits, ∀ b ∈ h.get_qubits,
        mappingFun m a = mappingFun m b → a = b) :
    address_qubits_hamiltonian h m = .ok ⟨h.terms.map (remapTerm (mappingFun m))⟩ := by
  have hts : ∀ t ∈ h.terms, t.ops ≠ [] ∧ (∀ p ∈ t.ops, p.2 ≠ Pauli.I)
      ∧ t.coefficient ≠ 0 ∧ (t.ops.map (fun p => mappingFun m p.1)).Nodup
      ∧ (∀ q ∈ t.qubits, qubitLookup m q = .ok (mappingFun m q)) := by
    intro t ht
    obtain ⟨h1, h2, h3, h4⟩ := hterms t ht
    refine ⟨h1, h3, h4, ?_, fun q hq => hcov q (mem_get_qubits.mpr ⟨t, ht, hq⟩)⟩
    have : (t.ops.map (fun p => mappingFun m p.1)) = t.qubits.map (mappingFun m) := by
      simp [PauliTerm.qubits, List.map_map]
    rw [this]
    exact h2.map_on (fun x hx y hy he =>
      hinj x (mem_get_qubits.mpr ⟨t, ht, hx⟩) y (mem_get_qubits.mpr ⟨t, ht, hy⟩) he)
  have hkeysR : ((h.terms.map (remapTerm (mappingFun m))).map PauliTerm.opsKey).Nodup := by
    have hshape : (h.terms.map (remapTerm (mappingFun m))).map PauliTerm.opsKey
        = (h.terms.map PauliTerm.opsKey).map
            (Finset.image (fun p => (mappingFun m p.1, p.2))) := by
      simp [List.map_map, remapTerm_opsKey, Function.comp]
    rw [hshape]
    refine hkeys.map_on ?_
    intro k1 hk1 k2 hk2 heq
    obtain ⟨t1, ht1, rfl⟩ := List.mem_map.mp hk1
    obtain ⟨t2, ht2, rfl⟩ := List.mem_map.mp hk2
    refine finset_image_eq_of_injOn _ _ _ ?_ heq
    intro a ha b hb hab
    have hfst : ∀ c ∈ t1.opsKey ∪ t2.opsKey, (c : Q × Pauli).1 ∈ h.get_qubits := by
      intro c hc
      rcases Finset.mem_union.mp hc with hc | hc
      · exact mem_get_qubits.mpr ⟨t1, ht1,
          List.mem_map_of_mem Prod.fst (List.mem_toFinset.mp hc)⟩
      · exact mem_get_qubits.mpr ⟨t2, ht2,
          List.mem_map_of_mem Prod.fst (List.mem_toFinset.mp hc)⟩
    obtain ⟨hab1, hab2⟩ := Prod.mk.injEq .. ▸ hab
    exact Prod.ext (hinj a.1 (hfst a ha) b.1 (hfst b hb) hab1) hab2
  obtain ⟨t0, rest, hsplit⟩ : ∃ t0 rest, h.terms = t0 :: rest := by
    cases hh : h.terms with
    | nil => exact absurd hh hne
    | cons a l => exact ⟨a, l, rfl⟩
  obtain ⟨h1, h2, h3, h4, h5⟩ := hts t0 (by rw [hsplit]; exact List.mem_cons_self _ _)
  have hstep := addressStep_ok m ⟨[⟨0, []⟩]⟩ t0 h1 h2 h4 h5
  have hops' : (remapTerm (mappingFun m) t0).ops ≠ [] := by
    simpa [remapTerm] using h1
  have hseed : (⟨[⟨0, []⟩]⟩ : PauliSum K Q).addTerm (remapTerm (mappingFun m) t0)
      = ⟨[remapTerm (mappingFun m) t0]⟩ := by
    unfold PauliSum.addTerm
    rw [show ([⟨0, []⟩] : List (PauliTerm K Q)) ++ [remapTerm (mappingFun m) t0]
        = [⟨0, []⟩, remapTerm (mappingFun m) t0] from rfl]
    rw [simplifyTerms_seed (remapTerm (mappingFun m) t0) h3 hops']
  have hkeys2 : (([remapTerm (mappingFun m) t0]
      ++ rest.map (remapTerm (mappingFun m))).map PauliTerm.opsKey).Nodup := by
    have heq : [remapTerm (mappingFun m) t0] ++ rest.map (remapTerm (mappingFun m))
        = h.terms.map (remapTerm (mappingFun m)) := by
      rw [hsplit]
      simp
    rw [heq]
    exact hkeysR
  have hacc1 : ∀ u ∈ [remapTerm (mappingFun m) t0], u.coefficient ≠ 0 := by
    intro u hu
    rw [List.mem_singleton.mp hu]
    exact h3
  have hrest : ∀ v ∈ rest, v.ops ≠ [] ∧ (∀ p ∈ v.ops, p.2 ≠ Pauli.I)
      ∧ v.coefficient ≠ 0 ∧ (v.ops.map (fun p => mappingFun m p.1)).Nodup
      ∧ (∀ q ∈ v.qubits, qubitLookup m q = .ok (mappingFun m q)) := by
    intro v hv
    exact hts v (by rw [hsplit]; exact List.mem_cons_of_mem _ hv)
  have hfold := foldlM_addressStep_exact m rest [remapTerm (mappingFun m) t0]
    (by simp) hacc1 hkeys2 hrest
  show h.terms.foldlM (addressStep m) ⟨[⟨0, []⟩]⟩ = _
  rw [hsplit, List.foldlM_cons, hstep]
  show List.foldlM (addressStep m)
    ((⟨[⟨0, []⟩]⟩ : PauliSum K Q).addTerm (remapTerm (mappingFun m) t0)) rest = _
  rw [hseed, hfold]
  simp

lemma mem_simplifyTerms_ops {ts : List (PauliTerm K Q)} {u : PauliTerm K Q}
    (hu : u ∈ simplifyTerms ts) : u.ops = [] ∨ ∃ t ∈ ts, u.ops = t.ops := by
  simp only [simplifyTerms] at hu
  split at hu
  · rw [List.mem_singleton.mp hu]
    exact Or.inl rfl
  · obtain ⟨k, hk, hmerge⟩ := List.mem_filterMap.mp hu
    simp only [mergeGroup] at hmerge
    cases hf : ts.filter (fun t => decide (t.opsKey = k)) with
    | nil => rw [hf] at hmerge; exact absurd hmerge (by simp)
    | cons t rest =>
        simp only [hf] at hmerge
        have ht : t ∈ ts := List.mem_of_mem_filter (hf ▸ List.mem_cons_self t rest)
        by_cases hc : t.coefficient + (rest.map PauliTerm.coefficient).sum = 0
        · rw [if_pos hc] at hmerge
          exact absurd hmerge (by simp)
        · rw [if_neg hc] at hmerge
          have := Option.some.inj hmerge
          exact Or.inr ⟨t, ht, by rw [← this]⟩

lemma mem_addTerm_ops {s : PauliSum K Q} {t u : PauliTerm K Q}
    (hu : u ∈ (s.addTerm t).terms) :
    u.ops = [] ∨ (∃ v ∈ s.terms, u.ops = v.ops) ∨ u.ops = t.ops := by
  rcases mem_simplifyTerms_ops hu with h | ⟨v, hv, h⟩
  · exact Or.inl h
  · rcases List.mem_append.mp hv with hv' | hv'
    · exact Or.inr (Or.inl ⟨v, hv', h⟩)
    · rw [List.mem_singleton.mp hv'] at h
      exact Or.inr (Or.inr h)

lemma foldlM_addressStep_total (m : List (Q × Q)) :
    ∀ (ts : List (PauliTerm K Q)) (acc : PauliSum K Q),
      (∀ t ∈ ts, t.ops ≠ [] ∧ (∀ p ∈ t.ops, p.2 ≠ Pauli.I)
        ∧ (t.ops.map (fun p => mappingFun m p.1)).Nodup
        ∧ (∀ q ∈ t.qubits, qubitLookup m q = .ok (mappingFun m q))) →
      ∃ r : PauliSum K Q, List.foldlM (addressStep m) acc ts = .ok r
        ∧ ∀ u ∈ r.terms, u.ops = [] ∨ (∃ v ∈ acc.terms, u.ops = v.ops)
            ∨ (∃ t ∈ ts, u.ops = (remapTerm (mappingFun m) t).ops)
  | [], acc, _ =>
      ⟨acc, by simp only [List.foldlM_nil]; rfl,
       fun u hu => Or.inr (Or.inl ⟨u, hu, rfl⟩)⟩
  | t :: ts, acc, h => by
      obtain ⟨h1, h2, h4, h5⟩ := h t (List.mem_cons_self _ _)
      have hstep := addressStep_ok m acc t h1 h2 h4 h5
      obtain ⟨r, hr, hshape⟩ := foldlM_addressStep_total m ts
        (acc.addTerm (remapTerm (mappingFun m) t))
        (fun v hv => h v (List.mem_cons_of_mem _ hv))
      refine ⟨r, ?_, ?_⟩
      · rw [List.foldlM_cons, hstep]
        show List.foldlM (addressStep m)
          (acc.addTerm (remapTerm (mappingFun m) t)) ts = _
        exact hr
      · intro u hu
        rcases hshape u hu with he | ⟨v, hv, he⟩ | ⟨t', ht', he⟩
        · exact Or.inl he
        · rcases mem_addTerm_ops hv with he' | ⟨w, hw, he'⟩ | he'
          · exact Or.inl (he.trans he')
          · exact Or.inr (Or.inl ⟨w, hw, he.trans he'⟩)
          · exact Or.inr (Or.inr ⟨t, List.mem_cons_self _ _, he.trans he'⟩)
        · exact Or.inr (Or.inr ⟨t', List.mem_cons_of_mem _ ht', he⟩)

end ObservableLemmas

section ObservableClaims

variable {K Q : Type} [CommRing K] [DecidableEq K] [DecidableEq Q]

/-- C6 counterexample: remapping `1·Z(q0)` with the covering mapping
`{q0 -> 3, q1 -> 4}` succeeds and yields an observable on qubit set
`{3}`, which is not the mapping's value set `{3, 4}` — refuting the
claim that the remapped qubit set always equals the value set. -/
theorem remap_value_set_counterexample :
    address_qubits_hamiltonian (⟨[⟨1, [(0, Pauli.Z)]⟩]⟩ : PauliSum ℤ ℕ) [(0, 3), (1, 4)]
      = .ok ⟨[⟨1, [(3, Pauli.Z)]⟩]⟩
    ∧ (⟨[⟨1, [(0, Pauli.Z)]⟩]⟩ : PauliSum ℤ ℕ).get_qubits = {0}
    ∧ qubitLookup [(0, 3), (1, 4)] 0 = .ok 3
    ∧ ¬ ((⟨[⟨1, [(3, Pauli.Z)]⟩]⟩ : PauliSum ℤ ℕ).get_qubits
        = (([(0, 3), (1, 4)] : List (ℕ × ℕ)).map Prod.snd).toFinset) := by
  refine ⟨by decide, by decide, rfl, by decide⟩

/-- C6 amended: for a simplified hamiltonian (non-empty, with non-empty
factor lists on pairwise distinct qubits, no identity factors, non-zero
coefficients and pairwise distinct operation sets) and a mapping that
covers its qubits injectively, remapping succeeds and the resulting
qubit set is exactly the image of the hamiltonian's qubit set under the
mapping; this equals the mapping's value set exactly when the mapping's
key set is the hamiltonian's qubit set. -/
theorem remap_get_qubits_is_mapped_support (h : PauliSum K Q) (m : List (Q × Q))
    (hne : h.terms ≠ [])
    (hterms : ∀ t ∈ h.terms, t.ops ≠ [] ∧ t.qubits.Nodup
      ∧ (∀ p ∈ t.ops, p.2 ≠ Pauli.I) ∧ t.coefficient ≠ 0)
    (hkeys : (h.terms.map PauliTerm.opsKey).Nodup)
    (hcov : ∀ q ∈ h.get_qubits, qubitLookup m q = .ok (mappingFun m q))
    (hinj : ∀ a ∈ h.get_qubits, ∀ b ∈ h.get_qubits,
        mappingFun m a = mappingFun m b → a = b) :
    (∃ h2, address_qubits_hamiltonian h m = .ok h2
       ∧ h2.get_qubits = h.get_qubits.image (mappingFun m))
    ∧ ((m.map Prod.fst).Nodup → (m.map Prod.fst).toFinset = h.get_qubits →
        h.get_qubits.image (mappingFun m) = (m.map Prod.snd).toFinset) := by
  constructor
  · refine ⟨⟨h.terms.map (remapTerm (mappingFun m))⟩,
      address_exact h m hne hterms hkeys hcov hinj, ?_⟩
    have := get_qubits_map_remap (mappingFun m) h.terms
    simpa using this
  · intro hnd hkeysEq
    rw [← hkeysEq]
    exact mappingFun_image_keys m hnd

/-- Witness for C6's amended claim on the repository test hamiltonian
(with integer coefficients) and the identity mapping on its qubits. -/
theorem remap_get_qubits_is_mapped_support_witness :
    (∃ h2, address_qubits_hamiltonian
        (⟨[⟨2, [(0, Pauli.Z)]⟩, ⟨1, [(1, Pauli.Z)]⟩,
           ⟨-1, [(1, Pauli.Z), (0, Pauli.Z)]⟩]⟩ : PauliSum ℤ ℕ) [(0, 0), (1, 1)]
        = .ok h2
      ∧ h2.get_qubits
          = (⟨[⟨2, [(0, Pauli.Z)]⟩, ⟨1, [(1, Pauli.Z)]⟩,
               ⟨-1, [(1, Pauli.Z), (0, Pauli.Z)]⟩]⟩ : PauliSum ℤ ℕ).get_qubits.image
              (mappingFun [(0, 0), (1, 1)]))
    ∧ ((([(0, 0), (1, 1)] : List (ℕ × ℕ)).map Prod.fst).Nodup →
        (([(0, 0), (1, 1)] : List (ℕ × ℕ)).map Prod.fst).toFinset
          = (⟨[⟨2, [(0, Pauli.Z)]⟩, ⟨1, [(1, Pauli.Z)]⟩,
               ⟨-1, [(1, Pauli.Z), (0, Pauli.Z)]⟩]⟩ : PauliSum ℤ ℕ).get_qubits →
        (⟨[⟨2, [(0, Pauli.Z)]⟩, ⟨1, [(1, Pauli.Z)]⟩,
           ⟨-1, [(1, Pauli.Z), (0, Pauli.Z)]⟩]⟩ : PauliSum ℤ ℕ).get_qubits.image
            (mappingFun [(0, 0), (1, 1)])
          = (([(0, 0), (1, 1)] : List (ℕ × ℕ)).map Prod.snd).toFinset) :=
  remap_get_qubits_is_mapped_support
    (⟨[⟨2, [(0, Pauli.Z)]⟩, ⟨1, [(1, Pauli.Z)]⟩,
       ⟨-1, [(1, Pauli.Z), (0, Pauli.Z)]⟩]⟩ : PauliSum ℤ ℕ) [(0, 0), (1, 1)]
    (by decide) (by decide) (by decide) (by decide) (by decide)

/-- C7 counterexample: the mapping `{q0 -> 5, q1 -> 5}` sends two
distinct identifiers to the same concrete index, yet remapping
`1·Z(q0) + 2·Z(q1)` raises no error: it returns the silently merged
observable `3·Z(5)`. -/
theorem collision_not_rejected_counterexample :
    address_qubits_hamiltonian
        (⟨[⟨1, [(0, Pauli.Z)]⟩, ⟨2, [(1, Pauli.Z)]⟩]⟩ : PauliSum ℤ ℕ) [(0, 5), (1, 5)]
      = .ok ⟨[⟨3, [(5, Pauli.Z)]⟩]⟩
    ∧ qubitLookup [(0, 5), (1, 5)] 0 = .ok 5
    ∧ qubitLookup [(0, 5), (1, 5)] 1 = .ok 5
    ∧ (0 : ℕ) ≠ 1 := by
  refine ⟨by decide, rfl, rfl, by decide⟩

/-- C7 amended: `address_qubits_hamiltonian` performs no mapping-level
collision check.  Whenever the mapping covers the hamiltonian's qubits
and no single term maps two of its own qubits to the same index,
remapping succeeds — even if the mapping sends distinct identifiers to
the same concrete index — and the result's qubit set is contained in the
image of the hamiltonian's qubit set, with collided identifiers merged
rather than rejected. -/
theorem collision_accepted_and_silently_merged (h : PauliSum K Q) (m : List (Q × Q))
    (hterms : ∀ t ∈ h.terms, t.ops ≠ [] ∧ (∀ p ∈ t.ops, p.2 ≠ Pauli.I)
      ∧ (t.ops.map (fun p => mappingFun m p.1)).Nodup)
    (hcov : ∀ q ∈ h.get_qubits, qubitLookup m q = .ok (mappingFun m q)) :
    ∃ h2, address_qubits_hamiltonian h m = .ok h2
      ∧ h2.get_qubits ⊆ h.get_qubits.image (mappingFun m) := by
  obtain ⟨r, hr, hshape⟩ := foldlM_addressStep_total m h.terms ⟨[⟨0, []⟩]⟩
    (fun t ht => ⟨(hterms t ht).1, (hterms t ht).2.1, (hterms t ht).2.2,
      fun q hq => hcov q (mem_get_qubits.mpr ⟨t, ht, hq⟩)⟩)
  refine ⟨r, hr, ?_⟩
  intro q hq
  obtain ⟨u, hu, hq'⟩ := mem_get_qubits.mp hq
  rcases hshape u hu with he | ⟨v, hv, he⟩ | ⟨t, ht, he⟩
  · rw [PauliTerm.qubits, he] at hq'
    exact absurd hq' (List.not_mem_nil q)
  · rw [List.mem_singleton.mp hv] at he
    rw [PauliTerm.qubits, he] at hq'
    exact absurd hq' (List.not_mem_nil q)
  · have : q ∈ (remapTerm (mappingFun m) t).qubits := by
      rw [PauliTerm.qubits, ← he]
      exact hq'
    rw [remapTerm_qubits] at this
    obtain ⟨a, ha, rfl⟩ := List.mem_map.mp this
    exact Finset.mem_image_of_mem (mappingFun m) (mem_get_qubits.mpr ⟨t, ht, ha⟩)

/-- Witness for C7's amended claim on a colliding mapping. -/
theorem collision_accepted_and_silently_merged_witness :
    ∃ h2, address_qubits_hamiltonian
        (⟨[⟨1, [(0, Pauli.Z)]⟩, ⟨2, [(1, Pauli.Z)]⟩]⟩ : PauliSum ℤ ℕ) [(0, 5), (1, 5)]
        = .ok h2
      ∧ h2.get_qubits ⊆
          (⟨[⟨1, [(0, Pauli.Z)]⟩, ⟨2, [(1, Pauli.Z)]⟩]⟩ : PauliSum ℤ ℕ).get_qubits.image
            (mappingFun [(0, 5), (1, 5)]) :=
  collision_accepted_and_silently_merged
    (⟨[⟨1, [(0, Pauli.Z)]⟩, ⟨2, [(1, Pauli.Z)]⟩]⟩ : PauliSum ℤ ℕ) [(0, 5), (1, 5)]
    (by decide) (by decide)

end ObservableClaims

end VQE
